import Mathlib

/-!
Verification of the logic-tree engine of `openquake/hazardlib/lt.py`:
the branch / branch-set tree, source filters, path enumeration, seeded
weighted sampling, planar-geometry validation, and the
`apply_uncertainties` group transformer.

Modelling conventions.  Python floats are modelled as rationals.
Python objects that the code mutates in place (sources and their nested
MFD objects) are modelled by a store of objects addressed by allocation
index: `copy.copy` allocates a new top-level source object sharing the
nested MFD address, `copy.deepcopy` allocates a fresh copy of both.
Fallible code returns `Except`; Python exceptions (`AssertionError`,
`NotImplementedError`, `KeyError`, `AttributeError`, `LogicTreeError`)
become error values.
-/

namespace OQ

/-- Python exceptions raised by the engine (`lt.py`). -/
inductive PyErr where
  | assertionError (msg : String)
  | attributeError
  | notImplementedError (source_id : String)
  | keyError (key : String)
deriving DecidableEq, Repr

/-- The uncertainty-type tags registered in the `apply_uncertainty`
callable dictionary of `lt.py` (lines 205-263).  Tags outside this table
are a programming error in the Python code (a `KeyError`), out of scope
of every claim, so the tag type is closed over the registered tags. -/
inductive UncType where
  | simpleFaultDipRelative
  | simpleFaultDipAbsolute
  | simpleFaultGeometryAbsolute
  | complexFaultGeometryAbsolute
  | characteristicFaultGeometryAbsolute
  | abGRAbsolute
  | bGRRelative
  | maxMagGRRelative
  | maxMagGRAbsolute
  | incrementalMFDAbsolute
deriving DecidableEq, Repr

/-- Parsed uncertainty values (the results of `parse_uncertainty`): a
bare float, an (a, b) Gutenberg-Richter pair, an incremental-MFD triple,
an opaque geometry payload, or a model string. -/
inductive UVal where
  | flt (q : ℚ)
  | ab (a b : ℚ)
  | mfdv (min_mag bin_width : ℚ) (rates : List ℚ)
  | geomv (tag : Nat) (data : List ℚ)
  | str (s : String)
deriving DecidableEq, Repr

/-- Value extraction for appliers expecting one float.  An ill-typed
value would raise in Python; that case is outside every theorem below,
so extraction totalises with 0. -/
def UVal.toQ : UVal → ℚ
  | .flt q => q
  | _ => 0

/-- A magnitude-frequency-distribution object (the `source.mfd` of
`lt.py`), reduced to the fields touched by the `modify` operations the
appliers invoke. -/
structure Mfd where
  a_val : ℚ
  b_val : ℚ
  max_mag : ℚ
  min_mag : ℚ
  bin_width : ℚ
  occur_rates : List ℚ
deriving DecidableEq, Repr

/-- Modelled from the spec: the concrete source-type hierarchy of
`openquake.hazardlib.source` (`ohs`), which is not under `src/`.  The
spec states that `area` is a specialization of `point` and that the
fault types are separate concrete types. -/
inductive SType where
  | point
  | area
  | simpleFault
  | complexFault
  | characteristicFault
  | nonParametric
deriving DecidableEq, Repr

/-- A source object: the fields of `openquake.hazardlib` sources that
`lt.py` reads (`source_id`, `tectonic_region_type`, the concrete type,
the one-byte `code`, `scaling_rate`) together with the state the
`modify` operations mutate (`dip`, a geometry payload) and the address
of the nested MFD object. -/
structure SrcObj where
  source_id : String
  tectonic_region_type : String
  stype : SType
  code : Char
  scaling_rate : ℚ
  dip : ℚ
  geomShape : UVal
  mfdRef : Nat
deriving DecidableEq, Repr

/-- The object store: source objects and MFD objects, addressed by
allocation index. -/
structure Store where
  srcs : List SrcObj
  mfds : List Mfd
deriving DecidableEq, Repr

def mfd0 : Mfd := ⟨0, 0, 0, 0, 0, []⟩

def src0 : SrcObj := ⟨"", "", .point, 'P', 1, 0, .flt 0, 0⟩

def Store.readSrc (st : Store) (a : Nat) : SrcObj := st.srcs.getD a src0

def Store.readMfd (st : Store) (a : Nat) : Mfd := st.mfds.getD a mfd0

def Store.writeSrc (st : Store) (a : Nat) (o : SrcObj) : Store :=
  ⟨st.srcs.set a o, st.mfds⟩

def Store.writeMfd (st : Store) (a : Nat) (m : Mfd) : Store :=
  ⟨st.srcs, st.mfds.set a m⟩

def Store.allocSrc (st : Store) (o : SrcObj) : Nat × Store :=
  (st.srcs.length, ⟨st.srcs ++ [o], st.mfds⟩)

def Store.allocMfd (st : Store) (m : Mfd) : Nat × Store :=
  (st.mfds.length, ⟨st.srcs, st.mfds ++ [m]⟩)

/-- `copy.copy(source)`: a fresh top-level source object whose fields,
including the nested MFD reference, are shared with the original. -/
def copy_copy (st : Store) (a : Nat) : Nat × Store :=
  st.allocSrc (st.readSrc a)

/-- `copy.deepcopy(source)`: a fresh source object owning a fresh copy
of the nested MFD object. -/
def copy_deepcopy (st : Store) (a : Nat) : Nat × Store :=
  let o := st.readSrc a
  let pm := st.allocMfd (st.readMfd o.mfdRef)
  pm.2.allocSrc { o with mfdRef := pm.1 }

def modifySrc (st : Store) (a : Nat) (f : SrcObj → SrcObj) : Store :=
  st.writeSrc a (f (st.readSrc a))

def modifyMfd (st : Store) (a : Nat) (f : Mfd → Mfd) : Store :=
  st.writeMfd (st.readSrc a).mfdRef (f (st.readMfd (st.readSrc a).mfdRef))

/-- The `apply_uncertainty` dispatch table of `lt.py` (lines 205-263):
each tag invokes one `modify` operation on the source object at `a` or
on its nested MFD object. -/
def apply_uncertainty (utype : UncType) (st : Store) (a : Nat) (value : UVal) : Store :=
  match utype with
  | .simpleFaultDipRelative =>
      modifySrc st a fun o => { o with dip := o.dip + value.toQ }
  | .simpleFaultDipAbsolute =>
      modifySrc st a fun o => { o with dip := value.toQ }
  | .simpleFaultGeometryAbsolute =>
      modifySrc st a fun o => { o with geomShape := value }
  | .complexFaultGeometryAbsolute =>
      modifySrc st a fun o => { o with geomShape := value }
  | .characteristicFaultGeometryAbsolute =>
      modifySrc st a fun o => { o with geomShape := value }
  | .abGRAbsolute =>
      modifyMfd st a fun m =>
        match value with
        | .ab av bv => { m with a_val := av, b_val := bv }
        | _ => m
  | .bGRRelative =>
      modifyMfd st a fun m => { m with b_val := m.b_val + value.toQ }
  | .maxMagGRRelative =>
      modifyMfd st a fun m => { m with max_mag := m.max_mag + value.toQ }
  | .maxMagGRAbsolute =>
      modifyMfd st a fun m => { m with max_mag := value.toQ }
  | .incrementalMFDAbsolute =>
      modifyMfd st a fun m =>
        match value with
        | .mfdv mn bw rates =>
            { m with min_mag := mn, bin_width := bw, occur_rates := rates }
        | _ => m

/-- One entry of a branch-set filter dictionary, keyed as in the XML
attributes; any other key is rejected by `filter_source` with an
`AssertionError`. -/
inductive FilterKV where
  | applyToTectonicRegionType (v : String)
  | applyToSourceType (v : String)
  | applyToSources (ids : List String)
  | otherKey (key : String)
deriving DecidableEq, Repr

mutual
/-- A `<logicTreeBranch />`: id, weight, parsed value, and the optional
child branch-set (`self.bset`, `None` for a leaf). -/
inductive Branch : Type where
  | mk (branch_id : String) (weight : ℚ) (value : UVal) (bset : Option BranchSet)
/-- A `<logicTreeBranchSet />`: uncertainty type, filters, the
`collapsed` flag and the owned branches. -/
inductive BranchSet : Type where
  | mk (uncertainty_type : UncType) (filters : List FilterKV) (collapsed : Bool)
      (branches : List Branch)
end

def Branch.branch_id : Branch → String
  | .mk i _ _ _ => i

def Branch.weight : Branch → ℚ
  | .mk _ w _ _ => w

def Branch.value : Branch → UVal
  | .mk _ _ v _ => v

def Branch.bset : Branch → Option BranchSet
  | .mk _ _ _ b => b

def BranchSet.uncertainty_type : BranchSet → UncType
  | .mk ut _ _ _ => ut

def BranchSet.filters : BranchSet → List FilterKV
  | .mk _ fs _ _ => fs

def BranchSet.collapsed : BranchSet → Bool
  | .mk _ _ c _ => c

def BranchSet.branches : BranchSet → List Branch
  | .mk _ _ _ brs => brs

/-- `isinstance(source, ohs.PointSource)` on an optional source:
`AreaSource` extends `PointSource`, and `isinstance(None, T)` is
`False`. -/
def isPointInst : Option SrcObj → Bool
  | some s => s.stype = .point || s.stype = .area
  | none => false

def isAreaInst : Option SrcObj → Bool
  | some s => s.stype = .area
  | none => false

def isSimpleFaultInst : Option SrcObj → Bool
  | some s => s.stype = .simpleFault
  | none => false

def isComplexFaultInst : Option SrcObj → Bool
  | some s => s.stype = .complexFault
  | none => false

def isCharFaultInst : Option SrcObj → Bool
  | some s => s.stype = .characteristicFault
  | none => false

/-- One iteration of the filter loop of `BranchSet.filter_source`
(lt.py lines 510-538): the returned boolean says whether this filter
passes.  Reading `source.tectonic_region_type` on a missing source is
an `AttributeError`; the `applyToSources` arm mirrors the Python
truthiness guard `if source and source.source_id not in value`, under
which a missing source skips the membership check (a present source
object is truthy). -/
def evalFilter (f : FilterKV) (source : Option SrcObj) : Except PyErr Bool :=
  match f with
  | .applyToTectonicRegionType v =>
      match source with
      | none => .error .attributeError
      | some s => .ok (v = s.tectonic_region_type)
  | .applyToSourceType v =>
      if v = "area" then .ok (isAreaInst source)
      else if v = "point" then .ok (isPointInst source && !isAreaInst source)
      else if v = "simpleFault" then .ok (isSimpleFaultInst source)
      else if v = "complexFault" then .ok (isComplexFaultInst source)
      else if v = "characteristicFault" then .ok (isCharFaultInst source)
      else .error (.assertionError "unknown source type")
  | .applyToSources ids =>
      match source with
      | none => .ok true
      | some s => .ok (s.source_id ∈ ids)
  | .otherKey _ => .error (.assertionError "unknown filter")

/-- The `for key, value in self.filters.items()` loop of
`filter_source`: the first failing filter returns `False`, otherwise
all filters pass and the result is `True`. -/
def filtersLoop (fs : List FilterKV) (source : Option SrcObj) : Except PyErr Bool :=
  match fs with
  | [] => .ok true
  | f :: rest =>
      match evalFilter f source with
      | .error e => .error e
      | .ok b => if b then filtersLoop rest source else .ok false

/-- `BranchSet.filter_source(source)` (lt.py lines 504-540). -/
def BranchSet.filter_source (bs : BranchSet) (source : Option SrcObj) : Except PyErr Bool :=
  filtersLoop bs.filters source

/-- A source group: the list of addresses of its sources and the
`changes` counter.  `apply_uncertainties` starts from
`copy.copy(src_group)` and reassigns both fields, so the group is
modelled by value. -/
structure SourceGroup where
  sources : List Nat
  changes : Nat
deriving DecidableEq, Repr

/-- The list comprehension
`oks = [bset.filter_source(source) for bset, value in bset_values]`;
a filter error aborts `apply_uncertainties`. -/
def oksOf (bset_values : List (BranchSet × UVal)) (source : Option SrcObj) :
    Except PyErr (List Bool) :=
  match bset_values with
  | [] => .ok []
  | (bs, _) :: rest =>
      match bs.filter_source source with
      | .error e => .error e
      | .ok b =>
          match oksOf rest source with
          | .error e => .error e
          | .ok l => .ok (b :: l)

/-- The collapsed fan-out loop `for br in bset.branches` of
`apply_uncertainties` (lt.py lines 291-296): deep-copy the working
source, tag the copy with the branch weight as `scaling_rate`, apply
the branch value, and append the copy to `srcs`. -/
def fanOut (ut : UncType) (branches : List Branch) (src : Nat) (srcs : List Nat)
    (st : Store) : List Nat × Store :=
  match branches with
  | [] => (srcs, st)
  | br :: rest =>
      let pn := copy_deepcopy st src
      let st2 := modifySrc pn.2 pn.1 fun o => { o with scaling_rate := br.weight }
      let st3 := apply_uncertainty ut st2 pn.1 br.value
      fanOut ut rest src (srcs ++ [pn.1]) st3

/-- The `for (bset, value), ok in zip(bset_values, oks)` loop of
`apply_uncertainties` (lt.py lines 285-302), carrying the working deep
copy `src`, the accumulated `srcs` list and the changes counter.  Note
that the collapsed arm increments `changes` by `len(srcs)` after the
appends, and that the non-collapsed arm seeds `srcs` with `src` only
when `srcs` is still empty. -/
def pairsLoop (bset_values : List (BranchSet × UVal)) (oks : List Bool) (src : Nat)
    (srcs : List Nat) (changes : Nat) (st : Store) :
    Except PyErr (List Nat × Nat × Store) :=
  match bset_values, oks with
  | [], _ => .ok (srcs, changes, st)
  | _ :: _, [] => .ok (srcs, changes, st)
  | (bs, value) :: prest, ok :: okrest =>
      if ok && bs.collapsed then
        if (st.readSrc src).code = 'N' then
          .error (.notImplementedError (st.readSrc src).source_id)
        else
          let (srcs1, st1) := fanOut bs.uncertainty_type bs.branches src srcs st
          pairsLoop prest okrest src srcs1 (changes + srcs1.length) st1
      else if ok then
        let srcs1 := if srcs.isEmpty then srcs ++ [src] else srcs
        let st1 := apply_uncertainty bs.uncertainty_type st src value
        pairsLoop prest okrest src srcs1 (changes + 1) st1
      else
        pairsLoop prest okrest src srcs changes st

/-- The per-source body of the `for source in src_group` loop of
`apply_uncertainties` (lt.py lines 280-305): evaluate all filters
against the input source; if any passes, work on a deep copy through
`pairsLoop`, otherwise emit a single shallow copy with no change. -/
def processSource (bset_values : List (BranchSet × UVal)) (a : Nat) (st : Store) :
    Except PyErr (List Nat × Nat × Store) :=
  match oksOf bset_values (some (st.readSrc a)) with
  | .error e => .error e
  | .ok oks =>
      if oks.any id then
        let pd := copy_deepcopy st a
        pairsLoop bset_values oks pd.1 [] 0 pd.2
      else
        let pc := copy_copy st a
        .ok ([pc.1], 0, pc.2)

/-- The outer source loop of `apply_uncertainties`, extending
`sg.sources` and accumulating `sg.changes`. -/
def srcLoop (bset_values : List (BranchSet × UVal)) (addrs : List Nat)
    (acc : List Nat) (changes : Nat) (st : Store) :
    Except PyErr (List Nat × Nat × Store) :=
  match addrs with
  | [] => .ok (acc, changes, st)
  | a :: rest =>
      match processSource bset_values a st with
      | .error e => .error e
      | .ok (srcs, ch, st1) => srcLoop bset_values rest (acc ++ srcs) (changes + ch) st1

/-- `apply_uncertainties(bset_values, src_group)` (lt.py lines 268-306):
returns a fresh group (the shallow group copy with `sources` and
`changes` reassigned) and the final store. -/
def apply_uncertainties (bset_values : List (BranchSet × UVal)) (src_group : SourceGroup)
    (st : Store) : Except PyErr (SourceGroup × Store) :=
  match srcLoop bset_values src_group.sources [] 0 st with
  | .error e => .error e
  | .ok (srcs, changes, st1) => .ok (⟨srcs, changes⟩, st1)

/-- A weight as carried by a weighted object: either a bare float or a
structured value holding a `weight` field (the two arms of the
`isinstance(obj.weight, float)` test of `sample`). -/
inductive WVal where
  | flt (w : ℚ)
  | dic (weight : ℚ)
deriving DecidableEq, Repr

/-- A weighted object passed to `sample`; the payload stands for the
object identity. -/
structure WObj where
  weight : WVal
  payload : Nat
deriving DecidableEq, Repr

/-- Modelled from the spec: a step of the numpy pseudo-random generator
(`numpy.random`, not part of this repository) as a fixed deterministic
linear-congruential map on an abstract state. -/
def lcg (s : Nat) : Nat := (1103515245 * s + 12345) % 2147483648

/-- Modelled from the spec: the state of the module-level numpy
generator that `numpy.random.seed` resets and `numpy.random.choice`
consumes. -/
structure RngState where
  state : Nat
deriving DecidableEq, Repr

/-- Modelled from the spec: `numpy.random.seed(seed)` deterministically
reinitialises the global generator state from the seed alone. -/
def numpy_seed (seed : Nat) : RngState := ⟨lcg seed⟩

/-- Modelled from the spec: `numpy.random.choice(n, num_samples, p)`
draws `num_samples` indices below `n` from the seeded generator, with
the numpy failure on an empty population or on probabilities that do
not sum to 1. -/
def numpy_choice (g : RngState) (n num_samples : Nat) (p : List ℚ) :
    Except PyErr (List Nat) × RngState :=
  if n = 0 then (.error (.assertionError "a must be non-empty"), g)
  else if p.sum ≠ 1 then (.error (.assertionError "probabilities do not sum to 1"), g)
  else ((.ok ((List.range num_samples).map fun i => lcg (g.state + i) % n)),
        ⟨lcg (g.state + num_samples)⟩)

/-- The weight-extraction arm of the `sample` loop: the weight itself
when `isinstance(obj.weight, float)`, otherwise its `weight` field. -/
def objWeight (obj : WObj) : ℚ :=
  match obj.weight with
  | .flt w => w
  | .dic w => w

/-- `sample(weighted_objects, num_samples, seed)` (lt.py lines 312-336),
run against the ambient numpy generator state `g`: extract the weights,
seed the global generator (discarding `g`, exactly as
`numpy.random.seed` overwrites the module state), draw the indices, and
return the objects at those indices as a materialised list. -/
def sample (weighted_objects : List WObj) (num_samples : Nat) (seed : Nat)
    (g : RngState) : Except PyErr (List WObj) × RngState :=
  let weights := weighted_objects.map objWeight
  let g1 := numpy_seed seed
  match numpy_choice g1 weights.length num_samples weights with
  | (.error e, g2) => (.error e, g2)
  | (.ok idxs, g2) => (.ok (idxs.map fun idx => weighted_objects.getD idx ⟨.flt 0, 0⟩), g2)

mutual
/-- `BranchSet.enumerate_paths` (lt.py lines 456-492), fused with the
weight-accumulating flattening of the outer generator: the list of
(path weight, path) pairs in generation order.  A collapsed branch-set
contributes a single synthetic branch, a shallow copy of its first
branch with the weight forced to 1 (`b0 = copy.copy(self.branches[0]);
b0.weight = 1.0`); `self.branches[0]` on an empty collapsed branch-set
raises in Python, a case outside every theorem below (conforming trees
have branches whose weights sum to 1). -/
def BranchSet.enumerate_paths : BranchSet → List (ℚ × List Branch)
  | .mk _ _ collapsed branches =>
      if collapsed then
        match branches with
        | [] => []
        | .mk i _ v ob :: _ =>
            match ob with
            | some child =>
                (child.enumerate_paths).map fun pr => (1 * pr.1, .mk i 1 v ob :: pr.2)
            | none => [(1, [.mk i 1 v ob])]
      else enumBranches branches

/-- The `for branch in branches` loop of `_enumerate_paths`. -/
def enumBranches : List Branch → List (ℚ × List Branch)
  | [] => []
  | br :: rest => enumBranch br ++ enumBranches rest

/-- The paths through one branch: recurse into the child branch-set
when present (`yield from branch.bset._enumerate_paths(path)`),
otherwise yield the one-branch path. -/
def enumBranch : Branch → List (ℚ × List Branch)
  | .mk i w v ob =>
      match ob with
      | some child =>
          (child.enumerate_paths).map fun pr => (w * pr.1, .mk i w v ob :: pr.2)
      | none => [(w, [.mk i w v ob])]
end

/-- The sum of the weights of the branches directly owned by a
branch-set. -/
def sumWeights (branches : List Branch) : ℚ :=
  (branches.map Branch.weight).sum

mutual
/-- A conforming logic tree: every reachable branch-set owns branches
whose weights sum to 1 (the construction invariant stated by the spec,
established by the excluded parser). -/
def conformingBS : BranchSet → Bool
  | .mk _ _ _ branches => decide (sumWeights branches = 1) && conformingList branches

def conformingList : List Branch → Bool
  | [] => true
  | br :: rest => conformingBr br && conformingList rest

def conformingBr : Branch → Bool
  | .mk _ _ _ ob =>
      match ob with
      | some child => conformingBS child
      | none => true
end

/-- `BranchSet.__getitem__(branch_id)`: linear scan of the owned
branches; absence is a `KeyError` in `get_bset_values`. -/
def BranchSet.lookup (bs : BranchSet) (brid : String) : Option Branch :=
  bs.branches.find? fun br => br.branch_id = brid

/-- `BranchSet.get_bset_values(ltpath)` (lt.py lines 542-557): consume
one branch id per level, collect (branch-set, branch value) pairs, and
stop when the id list is exhausted or the chosen branch has no child
branch-set, even if ids remain. -/
def BranchSet.get_bset_values (bs : BranchSet) (ltpath : List String) :
    Except PyErr (List (BranchSet × UVal)) :=
  match ltpath with
  | [] => .ok []
  | brid :: rest =>
      match bs.lookup brid with
      | none => .error (.keyError brid)
      | some br =>
          match br.bset with
          | none => .ok [(bs, br.value)]
          | some child =>
              match child.get_bset_values rest with
              | .error e => .error e
              | .ok pairs => .ok ((bs, br.value) :: pairs)

/-- One corner node of a planar surface geometry. -/
structure PlanarCorner where
  lon : ℚ
  lat : ℚ
  depth : ℚ
deriving DecidableEq, Repr

/-- A `planarSurface` geometry node: the spacing attribute, the four
corner nodes, and the line number used for error reporting. -/
structure PlanarGeom where
  lineno : Nat
  spacing : ℚ
  topLeft : PlanarCorner
  topRight : PlanarCorner
  bottomLeft : PlanarCorner
  bottomRight : PlanarCorner
deriving DecidableEq, Repr

/-- A `LogicTreeError`, reduced to the data its constructor stores:
the offending node line number, the file name and the message. -/
structure LogicTreeError where
  lineno : Nat
  filename : String
  message : String
deriving DecidableEq, Repr

/-- The per-corner validity test of `_validate_planar_fault_geometry`:
longitude in [-180, 180], latitude in [-90, 90], non-negative depth. -/
def cornerOk (c : PlanarCorner) : Bool :=
  decide (-180 ≤ c.lon) && decide (c.lon ≤ 180) &&
  decide (-90 ≤ c.lat) && decide (c.lat ≤ 90) && decide (0 ≤ c.depth)

/-- The corner loop of `_validate_planar_fault_geometry`: raise on the
first corner that is invalid or as soon as the spacing is falsy. -/
def planarLoop (corners : List PlanarCorner) (valid_spacing : Bool)
    (node : PlanarGeom) (filename : String) : Except LogicTreeError Unit :=
  match corners with
  | [] => .ok ()
  | c :: rest =>
      if !cornerOk c || !valid_spacing then
        .error ⟨node.lineno, filename, "planarFaultGeometry node is not valid"⟩
      else planarLoop rest valid_spacing node filename

/-- `_validate_planar_fault_geometry(utype, node, filename)` (lt.py
lines 188-200).  `valid_spacing = node[ spacing ]` is the Python
truthiness of the spacing float: nonzero. -/
def validate_planar_fault_geometry (node : PlanarGeom) (filename : String) :
    Except LogicTreeError Unit :=
  planarLoop [node.topLeft, node.topRight, node.bottomLeft, node.bottomRight]
    (decide (node.spacing ≠ 0)) node filename

/-! ### Auxiliary predicates and concrete instances used by the theorems -/

/-- The store cells below the given source and MFD bounds agree between
two stores: the prefix of objects existing before an operation is left
untouched by it. -/
def Preserved (nS nM : Nat) (st st' : Store) : Prop :=
  (∀ i, i < nS → st'.readSrc i = st.readSrc i) ∧
  (∀ i, i < nM → st'.readMfd i = st.readMfd i)

/-- The default branch used with `List.getD` when indexing branch
lists. -/
def bdef : Branch := .mk "" 0 (.flt 0) none

/-- All filters of a list pass (each one alone evaluates to `True`). -/
def AllFiltersPass (fs : List FilterKV) (source : Option SrcObj) : Prop :=
  ∀ f ∈ fs, evalFilter f source = .ok true

/-- A planar node with its four corners in range but a negative
spacing. -/
def planarNegSpacing : PlanarGeom :=
  ⟨7, -1, ⟨0, 0, 0⟩, ⟨1, 0, 0⟩, ⟨0, 1, 0⟩, ⟨1, 1, 0⟩⟩

/-- The filter map of the C7 scenario. -/
def ascPointFilters : List FilterKV :=
  [.applyToTectonicRegionType "Active Shallow Crust", .applyToSourceType "point"]

/-- The two-level tree of the C8 scenario: the root owns `b1` (with a
child branch-set owning `c1`, `c2`) and the leaf `b2`. -/
def c8child : BranchSet :=
  .mk .bGRRelative [] false
    [.mk "c1" (7/10) (.flt 21) none, .mk "c2" (3/10) (.flt 22) none]

def c8root : BranchSet :=
  .mk .maxMagGRAbsolute [] false
    [.mk "b1" (6/10) (.flt 11) (some c8child), .mk "b2" (4/10) (.flt 12) none]

/-- A concrete conforming tree whose second level is collapsed. -/
def treeC3 : BranchSet :=
  .mk .maxMagGRAbsolute [] false
    [.mk "b1" (6/10) (.flt 1)
        (some (.mk .bGRRelative [] true
          [.mk "c1" (7/10) (.flt 2) none, .mk "c2" (3/10) (.flt 3) none])),
     .mk "b2" (4/10) (.flt 4) none]

/-- A concrete one-source, one-MFD store shared by the
`apply_uncertainties` scenarios. -/
def demoSrc : SrcObj := ⟨"s1", "Active Shallow Crust", .simpleFault, 'P', 1, 0, .flt 0, 0⟩

def demoMfd : Mfd := ⟨1, 1, 5, 0, 0, []⟩

def demoStore : Store := ⟨[demoSrc], [demoMfd]⟩

/-- The same store with the single source marked as a multi-surface
composite (`code == b'N'`). -/
def demoStoreN : Store := ⟨[{ demoSrc with code := 'N' }], [demoMfd]⟩

/-- A filterless non-collapsed branch-set: applicable to every
source. -/
def openBS : BranchSet := .mk .maxMagGRAbsolute [] false []

/-- A filterless collapsed branch-set with two branches. -/
def collBS2 : BranchSet :=
  .mk .maxMagGRAbsolute [] true
    [.mk "w1" (1/2) (.flt 7) none, .mk "w2" (1/2) (.flt 8) none]

/-- A filterless collapsed branch-set with one branch. -/
def collBS1 : BranchSet :=
  .mk .maxMagGRAbsolute [] true [.mk "w1" 1 (.flt 8) none]

/-- The fields of a source object that no `modify` operation ever
touches. -/
def IdFieldsEq (o o' : SrcObj) : Prop :=
  o'.source_id = o.source_id ∧ o'.tectonic_region_type = o.tectonic_region_type ∧
  o'.stype = o.stype ∧ o'.code = o.code ∧ o'.scaling_rate = o.scaling_rate ∧
  o'.mfdRef = o.mfdRef

/-! ## Theorems -/

/-- C9 (amended): planar-geometry validation succeeds exactly when all
four corners have longitude in [-180, 180], latitude in [-90, 90] and
non-negative depth, and the spacing is nonzero (so in particular it
succeeds whenever the corners are in range and the spacing is
positive); otherwise it fails with a `LogicTreeError` carrying the
malformed node line and the planar-geometry message.  The amendment:
the Python guard `valid_spacing = node["spacing"]` is a truthiness
test, so only a zero spacing fails, not every non-positive spacing. -/
theorem validate_planar_characterisation (node : PlanarGeom) (fn : String) :
    (validate_planar_fault_geometry node fn = .ok () ↔
      (node.spacing ≠ 0 ∧ cornerOk node.topLeft = true ∧ cornerOk node.topRight = true ∧
        cornerOk node.bottomLeft = true ∧ cornerOk node.bottomRight = true)) ∧
    (validate_planar_fault_geometry node fn =
        .error ⟨node.lineno, fn, "planarFaultGeometry node is not valid"⟩ ↔
      ¬ (node.spacing ≠ 0 ∧ cornerOk node.topLeft = true ∧ cornerOk node.topRight = true ∧
        cornerOk node.bottomLeft = true ∧ cornerOk node.bottomRight = true)) := by
  by_cases hs : node.spacing = 0 <;>
    by_cases h1 : cornerOk node.topLeft <;>
    by_cases h2 : cornerOk node.topRight <;>
    by_cases h3 : cornerOk node.bottomLeft <;>
    by_cases h4 : cornerOk node.bottomRight <;>
    simp [validate_planar_fault_geometry, planarLoop, hs, h1, h2, h3, h4]

/-- C9 counterexample: the claim demands failure whenever the spacing
is not positive, but a negative spacing is truthy in Python, so
validation succeeds on this node. -/
theorem validate_planar_negative_spacing_passes :
    planarNegSpacing.spacing < 0 ∧
    validate_planar_fault_geometry planarNegSpacing "model.xml" = .ok () := by
  constructor
  · norm_num [planarNegSpacing]
  · norm_num [validate_planar_fault_geometry, planarLoop, planarNegSpacing, cornerOk]

/-- C9 witness: a node with an out-of-range corner longitude is
rejected with the error naming the node line, and a well-formed node
passes. -/
theorem validate_planar_witness :
    validate_planar_fault_geometry
        ⟨3, 2, ⟨-181, 0, 0⟩, ⟨1, 0, 0⟩, ⟨0, 1, 0⟩, ⟨1, 1, 0⟩⟩ "ssc.xml" =
      .error ⟨3, "ssc.xml", "planarFaultGeometry node is not valid"⟩ ∧
    validate_planar_fault_geometry
        ⟨4, 2, ⟨0, 0, 0⟩, ⟨1, 0, 0⟩, ⟨0, 1, 0⟩, ⟨1, 1, 0⟩⟩ "ssc.xml" = .ok () := by
  constructor
  · exact ((validate_planar_characterisation _ "ssc.xml").2).mpr (by
      intro h
      have := h.2.1
      norm_num [cornerOk] at this)
  · exact ((validate_planar_characterisation _ "ssc.xml").1).mpr (by
      refine ⟨by norm_num, ?_, ?_, ?_, ?_⟩ <;> norm_num [cornerOk])

/-- C4 (amended): for a branch-set carrying the explicit source-id
filter, a present source passes exactly when its `source_id` is in the
id collection, and a missing source passes the filter outright: the
Python guard `if source and source.source_id not in value` skips the
membership check for a falsy source, so absence does not fail the
filter.  The amendment drops the claimed failure on an absent
source. -/
theorem apply_to_sources_filter (ut : UncType) (c : Bool) (brs : List Branch)
    (ids : List String) (s : SrcObj) :
    (BranchSet.filter_source (.mk ut [.applyToSources ids] c brs) none = .ok true) ∧
    (BranchSet.filter_source (.mk ut [.applyToSources ids] c brs) (some s) = .ok true ↔
      s.source_id ∈ ids) ∧
    (BranchSet.filter_source (.mk ut [.applyToSources ids] c brs) (some s) = .ok false ↔
      s.source_id ∉ ids) := by
  refine ⟨rfl, ?_, ?_⟩ <;>
    by_cases h : s.source_id ∈ ids <;>
    simp [BranchSet.filter_source, filtersLoop, evalFilter, BranchSet.filters, h]

/-- C4 counterexample: with an `applyToSources` filter and no source
under evaluation, `filter_source` returns `True`, while the claim says
it must fail. -/
theorem apply_to_sources_absent_passes :
    BranchSet.filter_source (.mk .abGRAbsolute [.applyToSources ["src_a"]] false [])
      none = .ok true := rfl

/-- C4 witness: instantiating the amended characterisation on a listed
and on an unlisted present source. -/
theorem apply_to_sources_filter_witness :
    (BranchSet.filter_source
        (.mk .abGRAbsolute [.applyToSources ["src_a"]] false [])
        (some { src0 with source_id := "src_a" }) = .ok true) ∧
    (BranchSet.filter_source
        (.mk .abGRAbsolute [.applyToSources ["src_a"]] false [])
        (some { src0 with source_id := "src_b" }) = .ok false) := by
  constructor
  · exact (apply_to_sources_filter .abGRAbsolute false [] ["src_a"] _).2.1.mpr
      (by simp [src0])
  · exact (apply_to_sources_filter .abGRAbsolute false [] ["src_a"] _).2.2.mpr
      (by simp [src0])

theorem filtersLoop_true_iff (fs : List FilterKV) (source : Option SrcObj) :
    filtersLoop fs source = .ok true ↔ AllFiltersPass fs source := by
  induction fs with
  | nil => simp [filtersLoop, AllFiltersPass]
  | cons f rest ih =>
      unfold AllFiltersPass at ih ⊢
      rw [filtersLoop]
      cases h : evalFilter f source with
      | error e => simp [h]
      | ok b => cases b <;> simp [h, ih]

/-- C7: with filters requiring tectonic region "Active Shallow Crust"
and source type "point", every source in region "Stable Shallow Crust"
is rejected (whatever its type), and every true area source is rejected
even though `AreaSource` extends `PointSource`; in general
`filter_source` accepts exactly when every filter of the branch-set
passes (a conjunction). -/
theorem filter_conjunction (ut : UncType) (c : Bool) (brs : List Branch) (s : SrcObj) :
    (s.tectonic_region_type = "Stable Shallow Crust" →
      BranchSet.filter_source (.mk ut ascPointFilters c brs) (some s) = .ok false) ∧
    (s.stype = .area →
      BranchSet.filter_source (.mk ut ascPointFilters c brs) (some s) = .ok false) ∧
    (∀ (bs : BranchSet) (source : Option SrcObj),
      bs.filter_source source = .ok true ↔ AllFiltersPass bs.filters source) := by
  refine ⟨?_, ?_, fun bs source => filtersLoop_true_iff bs.filters source⟩
  · intro h
    simp [BranchSet.filter_source, BranchSet.filters, ascPointFilters, filtersLoop,
      evalFilter, h]
  · intro h
    by_cases htrt : "Active Shallow Crust" = s.tectonic_region_type <;>
      simp [BranchSet.filter_source, BranchSet.filters, ascPointFilters, filtersLoop,
        evalFilter, htrt, isPointInst, isAreaInst, h]

/-- C7 witness: a stable-crust simple-fault source and an
active-crust area source are both rejected by the C7 filter map, and
the conjunction law instantiated on the area source shows the failing
conjunct. -/
theorem filter_conjunction_witness :
    (BranchSet.filter_source (.mk .bGRRelative ascPointFilters false [])
      (some { src0 with tectonic_region_type := "Stable Shallow Crust",
                        stype := .simpleFault }) = .ok false) ∧
    (BranchSet.filter_source (.mk .bGRRelative ascPointFilters false [])
      (some { src0 with tectonic_region_type := "Active Shallow Crust",
                        stype := .area }) = .ok false) := by
  constructor
  · exact (filter_conjunction .bGRRelative false [] _).1 rfl
  · exact (filter_conjunction .bGRRelative false [] _).2.1 rfl

/-- C8: `get_bset_values` consumes one id per level, collecting
(branch-set, branch value) pairs; an empty id list yields no pairs, a
chosen leaf branch stops the walk without error even when ids remain,
a chosen branch with a child recurses into it, and on the two-level
example tree the path `["b1", "c1"]` returns the pairs
(root, value of b1), (child branch-set, value of c1). -/
theorem get_bset_values_spec :
    (∀ bs : BranchSet, bs.get_bset_values [] = .ok []) ∧
    (∀ (bs : BranchSet) (brid : String) (rest : List String) (br : Branch),
      bs.lookup brid = some br → br.bset = none →
      bs.get_bset_values (brid :: rest) = .ok [(bs, br.value)]) ∧
    (∀ (bs : BranchSet) (brid : String) (rest : List String) (br : Branch)
        (child : BranchSet),
      bs.lookup brid = some br → br.bset = some child →
      bs.get_bset_values (brid :: rest) =
        (child.get_bset_values rest).map fun pairs => (bs, br.value) :: pairs) ∧
    (c8root.get_bset_values ["b1", "c1"] =
      .ok [(c8root, .flt 11), (c8child, .flt 21)]) := by
  refine ⟨fun bs => rfl, ?_, ?_, rfl⟩
  · intro bs brid rest br h1 h2
    rw [BranchSet.get_bset_values, h1]
    simp [h2]
  · intro bs brid rest br child h1 h2
    rw [BranchSet.get_bset_values, h1]
    simp only [h2]
    cases h : child.get_bset_values rest <;> simp [Except.map, h]

/-- C8 witness: the early-stop behaviour on the example tree — the
leaf `b2` stops the walk with unconsumed ids and no error. -/
theorem get_bset_values_witness :
    c8root.get_bset_values ["b2", "unused"] = .ok [(c8root, .flt 12)] :=
  get_bset_values_spec.2.1 c8root "b2" ["unused"]
    (.mk "b2" (4/10) (.flt 12) none) rfl rfl

/-- C6: `sample` is deterministic — its result is independent of the
incoming generator state, because the call reseeds the global
generator from `seed` alone — and on a nonempty object list whose
weights sum to 1 it returns a materialised list of exactly
`num_samples` elements (a `List`, never a lazily-streamed value). -/
theorem sample_deterministic (objs : List WObj) (n seed : Nat) (g1 g2 : RngState) :
    ((sample objs n seed g1).1 = (sample objs n seed g2).1) ∧
    (objs ≠ [] → (objs.map objWeight).sum = 1 →
      ∃ l : List WObj, (sample objs n seed g1).1 = .ok l ∧ l.length = n) := by
  refine ⟨rfl, fun hne hsum => ?_⟩
  have hlen : ¬ (objs.map objWeight).length = 0 := by
    simpa [List.length_eq_zero] using hne
  rw [sample, numpy_choice, if_neg hlen, if_neg (by simp [hsum])]
  exact ⟨_, rfl, by simp⟩

/-- C6 witness: determinism and the materialised two-element draw on a
singleton weight-1 list, from two different incoming generator
states. -/
theorem sample_deterministic_witness :
    ((sample [⟨.flt 1, 7⟩] 2 3 ⟨0⟩).1 = (sample [⟨.flt 1, 7⟩] 2 3 ⟨99⟩).1) ∧
    (∃ l, (sample [⟨.flt 1, 7⟩] 2 3 ⟨0⟩).1 = .ok l ∧ l.length = 2) :=
  ⟨(sample_deterministic [⟨.flt 1, 7⟩] 2 3 ⟨0⟩ ⟨99⟩).1,
   (sample_deterministic [⟨.flt 1, 7⟩] 2 3 ⟨0⟩ ⟨99⟩).2 (by simp) (by simp [objWeight])⟩

theorem sum_fst_scaled (w : ℚ) (l : List (ℚ × List Branch))
    (k : ℚ × List Branch → List Branch) :
    ((l.map fun pr => (w * pr.1, k pr)).map Prod.fst).sum = w * (l.map Prod.fst).sum := by
  induction l with
  | nil => simp
  | cons a l ih =>
      simp only [List.map_cons, List.sum_cons, ih]
      ring

mutual
theorem sum_enumerate_paths : ∀ bs : BranchSet, conformingBS bs = true →
    ((BranchSet.enumerate_paths bs).map Prod.fst).sum = 1
  | .mk ut fs collapsed branches, h => by
      rw [conformingBS, Bool.and_eq_true, decide_eq_true_eq] at h
      obtain ⟨hsum, hlist⟩ := h
      cases collapsed with
      | false =>
          have he : BranchSet.enumerate_paths (.mk ut fs false branches) =
              enumBranches branches := by
            simp [BranchSet.enumerate_paths.eq_def]
          rw [he, sum_enumBranches branches hlist, hsum]
      | true =>
          cases branches with
          | nil => exact absurd hsum (by simp [sumWeights])
          | cons b0 rest =>
              cases b0 with
              | mk i w v ob =>
                  cases ob with
                  | none => simp [BranchSet.enumerate_paths.eq_def]
                  | some child =>
                      have hchild : conformingBS child = true := by
                        rw [conformingList, Bool.and_eq_true] at hlist
                        simpa [conformingBr] using hlist.1
                      have he : BranchSet.enumerate_paths
                            (.mk ut fs true (Branch.mk i w v (some child) :: rest)) =
                          (child.enumerate_paths).map
                            (fun pr => (1 * pr.1,
                              Branch.mk i 1 v (some child) :: pr.2)) := by
                        conv_lhs => rw [BranchSet.enumerate_paths.eq_def]
                        rfl
                      rw [he, sum_fst_scaled, sum_enumerate_paths child hchild]
                      norm_num

theorem sum_enumBranches : ∀ l : List Branch, conformingList l = true →
    ((enumBranches l).map Prod.fst).sum = sumWeights l
  | [], _ => by simp [enumBranches, sumWeights]
  | br :: rest, h => by
      rw [conformingList, Bool.and_eq_true] at h
      rw [enumBranches]
      simp only [List.map_append, List.sum_append]
      rw [sum_enumBranch br h.1, sum_enumBranches rest h.2]
      simp [sumWeights]

theorem sum_enumBranch : ∀ br : Branch, conformingBr br = true →
    ((enumBranch br).map Prod.fst).sum = br.weight
  | .mk i w v ob, h => by
      cases ob with
      | none => simp [enumBranch, Branch.weight]
      | some child =>
          have hc : conformingBS child = true := by simpa [conformingBr] using h
          have he : enumBranch (Branch.mk i w v (some child)) =
              (child.enumerate_paths).map
                (fun pr => (w * pr.1, Branch.mk i w v (some child) :: pr.2)) := by
            conv_lhs => rw [enumBranch.eq_def]
          rw [he, sum_fst_scaled, sum_enumerate_paths child hc]
          simp [Branch.weight]
end

mutual
theorem prod_enumerate_paths : ∀ (bs : BranchSet) (wp : ℚ × List Branch),
    wp ∈ BranchSet.enumerate_paths bs → wp.1 = (wp.2.map Branch.weight).prod
  | .mk ut fs collapsed branches, wp, hm => by
      cases collapsed with
      | false =>
          have he : BranchSet.enumerate_paths (.mk ut fs false branches) =
              enumBranches branches := by
            simp [BranchSet.enumerate_paths.eq_def]
          rw [he] at hm
          exact prod_enumBranches branches wp hm
      | true =>
          cases branches with
          | nil =>
              have he : BranchSet.enumerate_paths (.mk ut fs true []) = [] := by
                simp [BranchSet.enumerate_paths.eq_def]
              rw [he] at hm
              exact absurd hm (List.not_mem_nil wp)
          | cons b0 rest =>
              cases b0 with
              | mk i w v ob =>
                  cases ob with
                  | none =>
                      have he : BranchSet.enumerate_paths
                            (.mk ut fs true (Branch.mk i w v none :: rest)) =
                          [(1, [Branch.mk i 1 v none])] := by
                        conv_lhs => rw [BranchSet.enumerate_paths.eq_def]
                        rfl
                      rw [he] at hm
                      rw [List.mem_singleton] at hm
                      subst hm
                      simp [Branch.weight]
                  | some child =>
                      have he : BranchSet.enumerate_paths
                            (.mk ut fs true (Branch.mk i w v (some child) :: rest)) =
                          (child.enumerate_paths).map
                            (fun pr => (1 * pr.1,
                              Branch.mk i 1 v (some child) :: pr.2)) := by
                        conv_lhs => rw [BranchSet.enumerate_paths.eq_def]
                        rfl
                      rw [he] at hm
                      obtain ⟨pr, hpr, hwp⟩ := List.mem_map.1 hm
                      subst hwp
                      have hrec := prod_enumerate_paths child pr hpr
                      simp [Branch.weight, hrec]

theorem prod_enumBranches : ∀ (l : List Branch) (wp : ℚ × List Branch),
    wp ∈ enumBranches l → wp.1 = (wp.2.map Branch.weight).prod
  | br :: rest, wp, hm => by
      rw [enumBranches, List.mem_append] at hm
      cases hm with
      | inl h => exact prod_enumBranch br wp h
      | inr h => exact prod_enumBranches rest wp h

theorem prod_enumBranch : ∀ (br : Branch) (wp : ℚ × List Branch),
    wp ∈ enumBranch br → wp.1 = (wp.2.map Branch.weight).prod
  | .mk i w v ob, wp, hm => by
      cases ob with
      | none =>
          rw [show enumBranch (Branch.mk i w v none) = [(w, [Branch.mk i w v none])]
              from by conv_lhs => rw [enumBranch.eq_def]] at hm
          rw [List.mem_singleton] at hm
          subst hm
          simp [Branch.weight]
      | some child =>
          have he : enumBranch (Branch.mk i w v (some child)) =
              (child.enumerate_paths).map
                (fun pr => (w * pr.1, Branch.mk i w v (some child) :: pr.2)) := by
            conv_lhs => rw [enumBranch.eq_def]
          rw [he] at hm
          obtain ⟨pr, hpr, hwp⟩ := List.mem_map.1 hm
          subst hwp
          have hrec := prod_enumerate_paths child pr hpr
          simp [Branch.weight, hrec]
end

/-- C3: for every conforming logic tree (every branch-set directly owns
branches whose weights sum to 1, collapsed branch-sets included), the
path weights yielded by `enumerate_paths` — the product of each yielded
path branch weights, where a collapsed level contributes its synthetic
weight-1 branch — sum to exactly 1, and in particular to 1 within
1e-9. -/
theorem enumerate_paths_weights_sum_to_one (bs : BranchSet)
    (h : conformingBS bs = true) :
    ((bs.enumerate_paths).map fun wp => (wp.2.map Branch.weight).prod).sum = 1 ∧
    |((bs.enumerate_paths).map fun wp => (wp.2.map Branch.weight).prod).sum - 1| ≤
      1 / 1000000000 := by
  have hmap : ((bs.enumerate_paths).map fun wp => (wp.2.map Branch.weight).prod) =
      (bs.enumerate_paths).map Prod.fst := by
    refine List.map_congr_left fun wp hwp => ?_
    exact (prod_enumerate_paths bs wp hwp).symm
  constructor
  · rw [hmap, sum_enumerate_paths bs h]
  · rw [hmap, sum_enumerate_paths bs h]
    norm_num

/-- C3 witness: the weight-sum law instantiated on a concrete
conforming tree containing a collapsed branch-set. -/
theorem enumerate_paths_weights_witness :
    conformingBS treeC3 = true ∧
    ((treeC3.enumerate_paths).map fun wp => (wp.2.map Branch.weight).prod).sum = 1 := by
  have hc : conformingBS treeC3 = true := by
    norm_num [treeC3, conformingBS, conformingList, conformingBr, sumWeights,
      Branch.weight]
  exact ⟨hc, (enumerate_paths_weights_sum_to_one treeC3 hc).1⟩

/-! ### Store lemmas -/

theorem getD_append_lt {α : Type} (l m : List α) (d : α) (i : Nat) (h : i < l.length) :
    (l ++ m).getD i d = l.getD i d := by
  induction l generalizing i with
  | nil => exact absurd h (by simp)
  | cons a l ih =>
      cases i with
      | zero => rfl
      | succ j => exact ih j (Nat.lt_of_succ_lt_succ h)

theorem getD_append_len {α : Type} (l : List α) (o d : α) :
    (l ++ [o]).getD l.length d = o := by
  induction l with
  | nil => rfl
  | cons a l ih => exact ih

theorem getD_set_ne {α : Type} (l : List α) (a i : Nat) (o d : α) (h : a ≠ i) :
    (l.set a o).getD i d = l.getD i d := by
  induction l generalizing a i with
  | nil => rfl
  | cons x l ih =>
      cases a with
      | zero =>
          cases i with
          | zero => exact absurd rfl h
          | succ j => rfl
      | succ b =>
          cases i with
          | zero => rfl
          | succ j => exact ih b j (fun hh => h (by rw [hh]))

theorem getD_set_self {α : Type} (l : List α) (a : Nat) (o d : α) (h : a < l.length) :
    (l.set a o).getD a d = o := by
  induction l generalizing a with
  | nil => exact absurd h (by simp)
  | cons x l ih =>
      cases a with
      | zero => rfl
      | succ b => exact ih b (Nat.lt_of_succ_lt_succ h)

theorem set_oob {α : Type} (l : List α) (a : Nat) (o : α) (h : l.length ≤ a) :
    l.set a o = l := by
  induction l generalizing a with
  | nil => rfl
  | cons x l ih =>
      cases a with
      | zero => exact absurd h (by simp)
      | succ b => simpa using ih b (Nat.le_of_succ_le_succ h)

theorem Preserved.rfl (nS nM : Nat) (st : Store) : Preserved nS nM st st :=
  ⟨fun _ _ => Eq.refl _, fun _ _ => Eq.refl _⟩

theorem Preserved.trans {nS nM : Nat} {st1 st2 st3 : Store}
    (h1 : Preserved nS nM st1 st2) (h2 : Preserved nS nM st2 st3) :
    Preserved nS nM st1 st3 :=
  ⟨fun i hi => (h2.1 i hi).trans (h1.1 i hi), fun i hi => (h2.2 i hi).trans (h1.2 i hi)⟩

theorem Preserved.mono {nS nM nS' nM' : Nat} {st st' : Store}
    (hS : nS' ≤ nS) (hM : nM' ≤ nM) (h : Preserved nS nM st st') :
    Preserved nS' nM' st st' :=
  ⟨fun i hi => h.1 i (Nat.lt_of_lt_of_le hi hS), fun i hi => h.2 i (Nat.lt_of_lt_of_le hi hM)⟩

theorem readSrc_writeSrc_ne (st : Store) (a b : Nat) (o : SrcObj) (h : a ≠ b) :
    (st.writeSrc a o).readSrc b = st.readSrc b :=
  getD_set_ne st.srcs a b o src0 h

theorem readSrc_writeSrc_self (st : Store) (a : Nat) (o : SrcObj)
    (h : a < st.srcs.length) : (st.writeSrc a o).readSrc a = o :=
  getD_set_self st.srcs a o src0 h

theorem readMfd_writeMfd_ne (st : Store) (a b : Nat) (m : Mfd) (h : a ≠ b) :
    (st.writeMfd a m).readMfd b = st.readMfd b :=
  getD_set_ne st.mfds a b m mfd0 h

theorem readMfd_writeMfd_self (st : Store) (a : Nat) (m : Mfd)
    (h : a < st.mfds.length) : (st.writeMfd a m).readMfd a = m :=
  getD_set_self st.mfds a m mfd0 h

theorem IdFieldsEq.refl (o : SrcObj) : IdFieldsEq o o :=
  ⟨rfl, rfl, rfl, rfl, rfl, rfl⟩

theorem modifySrc_frame (st : Store) (a : Nat) (f : SrcObj → SrcObj)
    (hf : ∀ o, IdFieldsEq o (f o)) :
    (modifySrc st a f).srcs.length = st.srcs.length ∧
    (modifySrc st a f).mfds.length = st.mfds.length ∧
    (∀ b, b ≠ a → (modifySrc st a f).readSrc b = st.readSrc b) ∧
    (∀ b, IdFieldsEq (st.readSrc b) ((modifySrc st a f).readSrc b)) ∧
    (∀ m, (modifySrc st a f).readMfd m = st.readMfd m) := by
  refine ⟨by simp [modifySrc, Store.writeSrc], rfl,
    fun b hb => readSrc_writeSrc_ne st a b _ (fun hh => hb hh.symm), fun b => ?_,
    fun m => rfl⟩
  by_cases hb : b = a
  · subst hb
    by_cases h : b < st.srcs.length
    · have hrw : (modifySrc st b f).readSrc b = f (st.readSrc b) :=
        readSrc_writeSrc_self st b _ h
      rw [hrw]
      exact hf (st.readSrc b)
    · have hrw : (modifySrc st b f).readSrc b = st.readSrc b := by
        show (Store.mk (st.srcs.set b (f (st.readSrc b))) st.mfds).readSrc b = st.readSrc b
        unfold Store.readSrc
        rw [set_oob st.srcs b _ (Nat.le_of_not_lt h)]
      rw [hrw]
      exact IdFieldsEq.refl _
  · have hrw : (modifySrc st a f).readSrc b = st.readSrc b :=
      readSrc_writeSrc_ne st a b _ (fun hh => hb hh.symm)
    rw [hrw]
    exact IdFieldsEq.refl _

theorem modifyMfd_frame (st : Store) (a : Nat) (f : Mfd → Mfd) :
    (modifyMfd st a f).srcs.length = st.srcs.length ∧
    (modifyMfd st a f).mfds.length = st.mfds.length ∧
    (∀ b, (modifyMfd st a f).readSrc b = st.readSrc b) ∧
    (∀ b, IdFieldsEq (st.readSrc b) ((modifyMfd st a f).readSrc b)) ∧
    (∀ m, m ≠ (st.readSrc a).mfdRef → (modifyMfd st a f).readMfd m = st.readMfd m) :=
  ⟨rfl, by simp [modifyMfd, Store.writeMfd], fun b => rfl,
   fun b => IdFieldsEq.refl _,
   fun m hm => readMfd_writeMfd_ne st _ m _ (fun hh => hm hh.symm)⟩

/-- The frame of one `apply_uncertainty` call: store sizes are
unchanged, every other source object is unchanged, every MFD object
other than the one referenced by the target is unchanged, and on every
source object — the target included — the identity fields are
unchanged. -/
theorem apply_uncertainty_frame (ut : UncType) (st : Store) (a : Nat) (v : UVal) :
    (apply_uncertainty ut st a v).srcs.length = st.srcs.length ∧
    (apply_uncertainty ut st a v).mfds.length = st.mfds.length ∧
    (∀ b, b ≠ a → (apply_uncertainty ut st a v).readSrc b = st.readSrc b) ∧
    (∀ b, IdFieldsEq (st.readSrc b) ((apply_uncertainty ut st a v).readSrc b)) ∧
    (∀ m, m ≠ (st.readSrc a).mfdRef →
      (apply_uncertainty ut st a v).readMfd m = st.readMfd m) := by
  cases ut with
  | simpleFaultDipRelative =>
      obtain ⟨h1, h2, h3, h4, h5⟩ := modifySrc_frame st a
        (fun o => { o with dip := o.dip + v.toQ }) (fun o => ⟨rfl, rfl, rfl, rfl, rfl, rfl⟩)
      exact ⟨h1, h2, h3, h4, fun m _ => h5 m⟩
  | simpleFaultDipAbsolute =>
      obtain ⟨h1, h2, h3, h4, h5⟩ := modifySrc_frame st a
        (fun o => { o with dip := v.toQ }) (fun o => ⟨rfl, rfl, rfl, rfl, rfl, rfl⟩)
      exact ⟨h1, h2, h3, h4, fun m _ => h5 m⟩
  | simpleFaultGeometryAbsolute =>
      obtain ⟨h1, h2, h3, h4, h5⟩ := modifySrc_frame st a
        (fun o => { o with geomShape := v }) (fun o => ⟨rfl, rfl, rfl, rfl, rfl, rfl⟩)
      exact ⟨h1, h2, h3, h4, fun m _ => h5 m⟩
  | complexFaultGeometryAbsolute =>
      obtain ⟨h1, h2, h3, h4, h5⟩ := modifySrc_frame st a
        (fun o => { o with geomShape := v }) (fun o => ⟨rfl, rfl, rfl, rfl, rfl, rfl⟩)
      exact ⟨h1, h2, h3, h4, fun m _ => h5 m⟩
  | characteristicFaultGeometryAbsolute =>
      obtain ⟨h1, h2, h3, h4, h5⟩ := modifySrc_frame st a
        (fun o => { o with geomShape := v }) (fun o => ⟨rfl, rfl, rfl, rfl, rfl, rfl⟩)
      exact ⟨h1, h2, h3, h4, fun m _ => h5 m⟩
  | abGRAbsolute =>
      obtain ⟨h1, h2, h3, h4, h5⟩ := modifyMfd_frame st a _
      exact ⟨h1, h2, fun b _ => h3 b, h4, h5⟩
  | bGRRelative =>
      obtain ⟨h1, h2, h3, h4, h5⟩ := modifyMfd_frame st a _
      exact ⟨h1, h2, fun b _ => h3 b, h4, h5⟩
  | maxMagGRRelative =>
      obtain ⟨h1, h2, h3, h4, h5⟩ := modifyMfd_frame st a _
      exact ⟨h1, h2, fun b _ => h3 b, h4, h5⟩
  | maxMagGRAbsolute =>
      obtain ⟨h1, h2, h3, h4, h5⟩ := modifyMfd_frame st a _
      exact ⟨h1, h2, fun b _ => h3 b, h4, h5⟩
  | incrementalMFDAbsolute =>
      obtain ⟨h1, h2, h3, h4, h5⟩ := modifyMfd_frame st a _
      exact ⟨h1, h2, fun b _ => h3 b, h4, h5⟩

theorem copy_copy_spec (st : Store) (a : Nat) :
    (copy_copy st a).1 = st.srcs.length ∧
    (copy_copy st a).2.srcs.length = st.srcs.length + 1 ∧
    (copy_copy st a).2.mfds.length = st.mfds.length ∧
    Preserved st.srcs.length st.mfds.length st (copy_copy st a).2 ∧
    (copy_copy st a).2.readSrc st.srcs.length = st.readSrc a := by
  refine ⟨rfl, by simp [copy_copy, Store.allocSrc], rfl,
    ⟨fun i hi => ?_, fun i hi => rfl⟩, ?_⟩
  · exact getD_append_lt st.srcs [st.readSrc a] src0 i hi
  · exact getD_append_len st.srcs (st.readSrc a) src0

theorem copy_deepcopy_spec (st : Store) (a : Nat) :
    (copy_deepcopy st a).1 = st.srcs.length ∧
    (copy_deepcopy st a).2.srcs.length = st.srcs.length + 1 ∧
    (copy_deepcopy st a).2.mfds.length = st.mfds.length + 1 ∧
    Preserved st.srcs.length st.mfds.length st (copy_deepcopy st a).2 ∧
    (copy_deepcopy st a).2.readSrc st.srcs.length =
      { st.readSrc a with mfdRef := st.mfds.length } ∧
    (copy_deepcopy st a).2.readMfd st.mfds.length = st.readMfd (st.readSrc a).mfdRef := by
  refine ⟨rfl, by simp [copy_deepcopy, Store.allocSrc, Store.allocMfd],
    by simp [copy_deepcopy, Store.allocSrc, Store.allocMfd],
    ⟨fun i hi => ?_, fun i hi => ?_⟩, ?_, ?_⟩
  · exact getD_append_lt st.srcs _ src0 i hi
  · exact getD_append_lt st.mfds _ mfd0 i hi
  · exact getD_append_len st.srcs _ src0
  · exact getD_append_len st.mfds _ mfd0

theorem range_map_add (L n : Nat) :
    (List.range (n + 1)).map (fun j => L + j) =
      L :: (List.range n).map (fun j => L + 1 + j) := by
  rw [List.range_succ_eq_map, List.map_cons, List.map_map]
  refine congrArg₂ List.cons (by omega) ?_
  refine List.map_congr_left fun j _ => ?_
  simp [Function.comp]
  omega

/-- Full characterisation of the collapsed fan-out loop: it returns the
accumulated list extended with the freshly allocated addresses in
order, allocates exactly one source and one MFD object per branch,
leaves every preexisting object unchanged, and the `j`-th new source
carries the `j`-th branch weight as its `scaling_rate`, the identity
fields of the working copy, and a fresh MFD reference. -/
theorem fanOut_spec (ut : UncType) : ∀ (branches : List Branch) (src : Nat)
    (srcs : List Nat) (st : Store), src < st.srcs.length →
    (fanOut ut branches src srcs st).1 =
      srcs ++ (List.range branches.length).map (fun j => st.srcs.length + j) ∧
    (fanOut ut branches src srcs st).2.srcs.length = st.srcs.length + branches.length ∧
    (fanOut ut branches src srcs st).2.mfds.length = st.mfds.length + branches.length ∧
    Preserved st.srcs.length st.mfds.length st (fanOut ut branches src srcs st).2 ∧
    (∀ j, j < branches.length →
      ((fanOut ut branches src srcs st).2.readSrc (st.srcs.length + j)).scaling_rate =
        (branches.getD j bdef).weight ∧
      ((fanOut ut branches src srcs st).2.readSrc (st.srcs.length + j)).source_id =
        (st.readSrc src).source_id ∧
      ((fanOut ut branches src srcs st).2.readSrc (st.srcs.length + j)).code =
        (st.readSrc src).code ∧
      st.mfds.length ≤
        ((fanOut ut branches src srcs st).2.readSrc (st.srcs.length + j)).mfdRef) := by
  intro branches
  induction branches with
  | nil =>
      intro src srcs st hsrc
      exact ⟨by simp [fanOut], by simp [fanOut], by simp [fanOut],
        by rw [show (fanOut ut [] src srcs st).2 = st from rfl]; exact Preserved.rfl _ _ _,
        fun j hj => absurd hj (by simp)⟩
  | cons br rest ih =>
      intro src srcs st hsrc
      obtain ⟨hd1, hd2, hd3, hdP, hdSelf, hdMfd⟩ := copy_deepcopy_spec st src
      set pn := copy_deepcopy st src with hpn
      set st2 := modifySrc pn.2 pn.1
        (fun o => { o with scaling_rate := br.weight }) with hst2
      set st3 := apply_uncertainty ut st2 pn.1 br.value with hst3
      have hunf : fanOut ut (br :: rest) src srcs st =
          fanOut ut rest src (srcs ++ [pn.1]) st3 := rfl
      -- facts about st2
      have h2len : st2.srcs.length = st.srcs.length + 1 := by
        rw [hst2]
        rw [show (modifySrc pn.2 pn.1 fun o => { o with scaling_rate := br.weight }).srcs.length
            = pn.2.srcs.length from by simp [modifySrc, Store.writeSrc]]
        exact hd2
      have h2mlen : st2.mfds.length = st.mfds.length + 1 := by
        rw [hst2]
        rw [show (modifySrc pn.2 pn.1 fun o => { o with scaling_rate := br.weight }).mfds.length
            = pn.2.mfds.length from rfl]
        exact hd3
      have h2P : Preserved st.srcs.length st.mfds.length st st2 := by
        refine Preserved.trans hdP ⟨fun i hi => ?_, fun i hi => rfl⟩
        rw [hst2]
        exact readSrc_writeSrc_ne pn.2 pn.1 i _ (by rw [hd1]; omega)
      have h2self : st2.readSrc pn.1 =
          { st.readSrc src with mfdRef := st.mfds.length, scaling_rate := br.weight } := by
        have hlt : pn.1 < pn.2.srcs.length := by rw [hd1, hd2]; omega
        rw [hst2]
        unfold modifySrc
        rw [readSrc_writeSrc_self pn.2 pn.1 _ hlt, hd1, hdSelf]
      have h2mref : (st2.readSrc pn.1).mfdRef = st.mfds.length := by rw [h2self]
      -- facts about st3
      have h3f := apply_uncertainty_frame ut st2 pn.1 br.value
      rw [← hst3] at h3f
      obtain ⟨h3len0, h3mlen0, h3ne, h3id, h3mfd⟩ := h3f
      have h3len : st3.srcs.length = st.srcs.length + 1 := by rw [h3len0, h2len]
      have h3mlen : st3.mfds.length = st.mfds.length + 1 := by rw [h3mlen0, h2mlen]
      have h3P : Preserved st.srcs.length st.mfds.length st st3 := by
        refine Preserved.trans h2P ⟨fun i hi => ?_, fun i hi => ?_⟩
        · exact h3ne i (by rw [hd1]; omega)
        · exact h3mfd i (by rw [h2mref]; omega)
      have h3scal : (st3.readSrc pn.1).scaling_rate = br.weight := by
        rw [(h3id pn.1).2.2.2.2.1, h2self]
      have h3sid : (st3.readSrc pn.1).source_id = (st.readSrc src).source_id := by
        rw [(h3id pn.1).1, h2self]
      have h3code : (st3.readSrc pn.1).code = (st.readSrc src).code := by
        rw [(h3id pn.1).2.2.2.1, h2self]
      have h3mref : (st3.readSrc pn.1).mfdRef = st.mfds.length := by
        rw [(h3id pn.1).2.2.2.2.2, h2self]
      have h3src : st3.readSrc src = st.readSrc src := h3P.1 src hsrc
      have hsrc3 : src < st3.srcs.length := by omega
      obtain ⟨ih1, ih2, ih3, ihP, ihC⟩ := ih src (srcs ++ [pn.1]) st3 hsrc3
      refine ⟨?_, ?_, ?_, ?_, ?_⟩
      · rw [hunf, ih1, h3len, hd1]
        simp only [List.length_cons]
        rw [range_map_add st.srcs.length rest.length]
        simp [List.append_assoc]
      · rw [hunf, ih2, h3len]
        simp [Nat.add_assoc, Nat.add_comm 1 rest.length]
      · rw [hunf, ih3, h3mlen]
        simp [Nat.add_assoc, Nat.add_comm 1 rest.length]
      · rw [hunf]
        refine Preserved.trans h3P (Preserved.mono ?_ ?_ ihP) <;> omega
      · intro j hj
        cases j with
        | zero =>
            have haddr : st.srcs.length + 0 = pn.1 := by rw [hd1]; omega
            have hpres : (fanOut ut rest src (srcs ++ [pn.1]) st3).2.readSrc pn.1 =
                st3.readSrc pn.1 := ihP.1 pn.1 (by rw [hd1]; omega)
            rw [hunf, haddr, hpres]
            exact ⟨h3scal, h3sid, h3code, by rw [h3mref]⟩
        | succ k =>
            have hk : k < rest.length := by simpa using hj
            obtain ⟨c1, c2, c3, c4⟩ := ihC k hk
            have haddr : st.srcs.length + (k + 1) = st3.srcs.length + k := by omega
            rw [hunf, haddr]
            refine ⟨?_, ?_, ?_, ?_⟩
            · rw [c1]; rfl
            · rw [c2, h3src]
            · rw [c3, h3src]
            · omega

/-- A prefix of pairs whose filters all rejected the source is skipped
by the pair loop without touching its state. -/
theorem pairsLoop_skip_false (pre : List (BranchSet × UVal)) :
    ∀ (preOks : List Bool) (pairs2 : List (BranchSet × UVal)) (oks2 : List Bool)
      (src : Nat) (srcs : List Nat) (ch : Nat) (st : Store),
    preOks.length = pre.length → (∀ b ∈ preOks, b = false) →
    pairsLoop (pre ++ pairs2) (preOks ++ oks2) src srcs ch st =
      pairsLoop pairs2 oks2 src srcs ch st := by
  induction pre with
  | nil =>
      intro preOks pairs2 oks2 src srcs ch st hlen hfalse
      have hnil : preOks = [] := List.eq_nil_of_length_eq_zero (by simpa using hlen)
      subst hnil
      rfl
  | cons p pre ih =>
      intro preOks pairs2 oks2 src srcs ch st hlen hfalse
      obtain ⟨bs, v⟩ := p
      cases preOks with
      | nil => simp at hlen
      | cons b preOks =>
          have hb : b = false := hfalse b (List.mem_cons_self b preOks)
          subst hb
          rw [List.cons_append, List.cons_append]
          rw [show pairsLoop ((bs, v) :: (pre ++ pairs2)) (false :: (preOks ++ oks2))
              src srcs ch st = pairsLoop (pre ++ pairs2) (preOks ++ oks2) src srcs ch st
              from by simp [pairsLoop]]
          exact ih preOks pairs2 oks2 src srcs ch st (by simpa using hlen)
            (fun x hx => hfalse x (List.mem_cons_of_mem _ hx))

/-- Main frame invariant of the pair loop: objects existing below the
bounds survive untouched, the store only grows, and every address in
the produced source list is an accumulated one, the working copy, or a
fresh allocation. -/
theorem pairsLoop_frame (pairs : List (BranchSet × UVal)) :
    ∀ (oks : List Bool) (src : Nat) (srcs : List Nat) (ch : Nat) (st : Store)
      (nS nM : Nat) (r : List Nat × Nat × Store),
    nS ≤ st.srcs.length → nM ≤ st.mfds.length →
    nS ≤ src → src < st.srcs.length → nM ≤ (st.readSrc src).mfdRef →
    pairsLoop pairs oks src srcs ch st = .ok r →
    Preserved nS nM st r.2.2 ∧
    st.srcs.length ≤ r.2.2.srcs.length ∧ st.mfds.length ≤ r.2.2.mfds.length ∧
    (∀ x ∈ r.1, x ∈ srcs ∨ x = src ∨ st.srcs.length ≤ x) := by
  induction pairs with
  | nil =>
      intro oks src srcs ch st nS nM r _ _ _ _ _ h
      have hr : r = (srcs, ch, st) := (Except.ok.inj h).symm
      subst hr
      exact ⟨Preserved.rfl nS nM st, Nat.le_refl _, Nat.le_refl _,
        fun x hx => Or.inl hx⟩
  | cons p pairs ih =>
      intro oks src srcs ch st nS nM r hnS hnM hnsrc hsrc hmref h
      obtain ⟨bs, v⟩ := p
      cases oks with
      | nil =>
          have hr : r = (srcs, ch, st) := (Except.ok.inj h).symm
          subst hr
          exact ⟨Preserved.rfl nS nM st, Nat.le_refl _, Nat.le_refl _,
            fun x hx => Or.inl hx⟩
      | cons ok oks =>
          by_cases hcol : (ok && bs.collapsed) = true
          · by_cases hN : (st.readSrc src).code = 'N'
            · rw [show pairsLoop ((bs, v) :: pairs) (ok :: oks) src srcs ch st =
                  .error (.notImplementedError (st.readSrc src).source_id)
                  from by simp [pairsLoop, hcol, hN]] at h
              exact absurd h (by simp)
            · rw [show pairsLoop ((bs, v) :: pairs) (ok :: oks) src srcs ch st =
                  pairsLoop pairs oks src
                    (fanOut bs.uncertainty_type bs.branches src srcs st).1
                    (ch + (fanOut bs.uncertainty_type bs.branches src srcs st).1.length)
                    (fanOut bs.uncertainty_type bs.branches src srcs st).2
                  from by simp [pairsLoop, hcol, hN]] at h
              obtain ⟨f1, f2, f3, fP, _⟩ :=
                fanOut_spec bs.uncertainty_type bs.branches src srcs st hsrc
              have hsrcF : src < (fanOut bs.uncertainty_type bs.branches src srcs st).2.srcs.length := by
                omega
              have hmrefF : nM ≤
                  (((fanOut bs.uncertainty_type bs.branches src srcs st).2).readSrc src).mfdRef := by
                rw [fP.1 src hsrc]
                exact hmref
              obtain ⟨iP, iS, iM, iX⟩ := ih oks src _ _ _ nS nM r
                (by omega) (by omega) hnsrc hsrcF hmrefF h
              refine ⟨Preserved.trans (Preserved.mono (by omega) (by omega) fP) iP,
                by omega, by omega, fun x hx => ?_⟩
              rcases iX x hx with hx1 | hx2 | hx3
              · rw [f1] at hx1
                rcases List.mem_append.1 hx1 with hy | hy
                · exact Or.inl hy
                · right; right
                  obtain ⟨j, _, hj⟩ := List.mem_map.1 hy
                  omega
              · exact Or.inr (Or.inl hx2)
              · right; right; omega
          · by_cases hok : ok = true
            · have hcol2 : bs.collapsed = false := by
                cases hc : bs.collapsed
                · rfl
                · rw [hok, hc] at hcol; simp at hcol
              rw [show pairsLoop ((bs, v) :: pairs) (ok :: oks) src srcs ch st =
                  pairsLoop pairs oks src
                    (if srcs.isEmpty then srcs ++ [src] else srcs) (ch + 1)
                    (apply_uncertainty bs.uncertainty_type st src v)
                  from by simp [pairsLoop, hok, hcol2]] at h
              obtain ⟨a1, a2, a3, a4, a5⟩ :=
                apply_uncertainty_frame bs.uncertainty_type st src v
              have haP : Preserved nS nM st (apply_uncertainty bs.uncertainty_type st src v) := by
                refine ⟨fun i hi => a3 i (by omega), fun i hi => a5 i (by omega)⟩
              have hsrcA : src < (apply_uncertainty bs.uncertainty_type st src v).srcs.length := by
                omega
              have hmrefA : nM ≤
                  ((apply_uncertainty bs.uncertainty_type st src v).readSrc src).mfdRef := by
                rw [(a4 src).2.2.2.2.2]
                exact hmref
              obtain ⟨iP, iS, iM, iX⟩ := ih oks src _ _ _ nS nM r
                (by omega) (by omega) hnsrc hsrcA hmrefA h
              refine ⟨Preserved.trans haP iP, by omega, by omega, fun x hx => ?_⟩
              rcases iX x hx with hx1 | hx2 | hx3
              · by_cases hemp : srcs.isEmpty
                · rw [if_pos hemp] at hx1
                  rcases List.mem_append.1 hx1 with hy | hy
                  · exact Or.inl hy
                  · exact Or.inr (Or.inl (List.mem_singleton.1 hy))
                · rw [if_neg hemp] at hx1
                  exact Or.inl hx1
              · exact Or.inr (Or.inl hx2)
              · right; right; omega
            · have hokf : ok = false := by
                cases hc : ok
                · rfl
                · exact absurd hc hok
              subst hokf
              rw [show pairsLoop ((bs, v) :: pairs) (false :: oks) src srcs ch st =
                  pairsLoop pairs oks src srcs ch st
                  from by simp [pairsLoop]] at h
              exact ih oks src srcs ch st nS nM r hnS hnM hnsrc hsrc hmref h

/-- Per-source frame: processing one source leaves every preexisting
object untouched, only grows the store, and emits only freshly
allocated addresses. -/
theorem processSource_frame (pairs : List (BranchSet × UVal)) (a : Nat) (st : Store)
    (r : List Nat × Nat × Store) (h : processSource pairs a st = .ok r) :
    Preserved st.srcs.length st.mfds.length st r.2.2 ∧
    st.srcs.length ≤ r.2.2.srcs.length ∧ st.mfds.length ≤ r.2.2.mfds.length ∧
    (∀ x ∈ r.1, st.srcs.length ≤ x) := by
  unfold processSource at h
  cases hoks : oksOf pairs (some (st.readSrc a)) with
  | error e => rw [hoks] at h; exact absurd h (by simp)
  | ok oks =>
      rw [hoks] at h
      dsimp only at h
      obtain ⟨hd1, hd2, hd3, hdP, hdSelf, hdMfd⟩ := copy_deepcopy_spec st a
      obtain ⟨hc1, hc2, hc3, hcP, hcSelf⟩ := copy_copy_spec st a
      by_cases hany : oks.any id = true
      · rw [if_pos hany] at h
        have hlt : (copy_deepcopy st a).1 < (copy_deepcopy st a).2.srcs.length := by
          omega
        have hmr : st.mfds.length ≤
            ((copy_deepcopy st a).2.readSrc (copy_deepcopy st a).1).mfdRef := by
          rw [hd1, hdSelf]
        obtain ⟨iP, iS, iM, iX⟩ := pairsLoop_frame pairs oks (copy_deepcopy st a).1 []
          0 (copy_deepcopy st a).2 st.srcs.length st.mfds.length r
          (by omega) (by omega) (by omega) hlt hmr h
        refine ⟨Preserved.trans hdP iP, by omega, by omega, fun x hx => ?_⟩
        rcases iX x hx with hx1 | hx2 | hx3
        · exact absurd hx1 (List.not_mem_nil x)
        · omega
        · omega
      · rw [if_neg hany] at h
        have hr : r = ([(copy_copy st a).1], 0, (copy_copy st a).2) :=
          (Except.ok.inj h).symm
        subst hr
        dsimp only
        refine ⟨hcP, by omega, by omega, fun x hx => ?_⟩
        have hx1 : x = (copy_copy st a).1 := List.mem_singleton.1 hx
        omega

/-- Frame of the outer source loop. -/
theorem srcLoop_frame (pairs : List (BranchSet × UVal)) :
    ∀ (addrs acc : List Nat) (ch : Nat) (st : Store) (r : List Nat × Nat × Store),
    srcLoop pairs addrs acc ch st = .ok r →
    Preserved st.srcs.length st.mfds.length st r.2.2 ∧
    st.srcs.length ≤ r.2.2.srcs.length ∧ st.mfds.length ≤ r.2.2.mfds.length ∧
    (∀ x ∈ r.1, x ∈ acc ∨ st.srcs.length ≤ x) := by
  intro addrs
  induction addrs with
  | nil =>
      intro acc ch st r h
      have hr : r = (acc, ch, st) := (Except.ok.inj h).symm
      subst hr
      exact ⟨Preserved.rfl _ _ st, Nat.le_refl _, Nat.le_refl _, fun x hx => Or.inl hx⟩
  | cons a addrs ih =>
      intro acc ch st r h
      rw [srcLoop] at h
      cases hps : processSource pairs a st with
      | error e => rw [hps] at h; exact absurd h (by simp)
      | ok pr =>
          rw [hps] at h
          obtain ⟨srcs1, ch1, st1⟩ := pr
          obtain ⟨pP, pS, pM, pX⟩ := processSource_frame pairs a st _ hps
          dsimp only at pP pS pM pX
          obtain ⟨iP, iS, iM, iX⟩ := ih (acc ++ srcs1) (ch + ch1) st1 r h
          refine ⟨Preserved.trans pP (Preserved.mono (by omega) (by omega) iP),
            by omega, by omega, fun x hx => ?_⟩
          rcases iX x hx with hx1 | hx2
          · rcases List.mem_append.1 hx1 with hy | hy
            · exact Or.inl hy
            · exact Or.inr (pX x hy)
          · exact Or.inr (by omega)

/-- C2 (amended): `apply_uncertainties` never mutates its input group
or any of its sources — every source and MFD object existing before
the call is unchanged after it — and the returned group is a new value
whose sources list holds only freshly allocated source objects, none
of them an input source.  The amendment: the object graph of the
returned group is not fully distinct from the input, because a source
rejected by every pair is emitted as a shallow copy that shares its
nested MFD object with the input source (see the counterexample). -/
theorem apply_uncertainties_no_mutation (pairs : List (BranchSet × UVal))
    (g : SourceGroup) (st : Store) (g' : SourceGroup) (st' : Store)
    (h : apply_uncertainties pairs g st = .ok (g', st'))
    (hv : ∀ a ∈ g.sources, a < st.srcs.length) :
    Preserved st.srcs.length st.mfds.length st st' ∧
    (∀ x ∈ g'.sources, st.srcs.length ≤ x) ∧
    (∀ x ∈ g'.sources, x ∉ g.sources) := by
  unfold apply_uncertainties at h
  cases hsl : srcLoop pairs g.sources [] 0 st with
  | error e => rw [hsl] at h; exact absurd h (by simp)
  | ok r =>
      rw [hsl] at h
      obtain ⟨srcs, ch, st1⟩ := r
      have hg : g' = ⟨srcs, ch⟩ ∧ st' = st1 := by
        have := Except.ok.inj h
        exact ⟨congrArg Prod.fst this.symm, congrArg Prod.snd this.symm⟩
      obtain ⟨hg', hst'⟩ := hg
      subst hg'
      subst hst'
      obtain ⟨P, S, M, X⟩ := srcLoop_frame pairs g.sources [] 0 st _ hsl
      refine ⟨P, fun x hx => ?_, fun x hx ha => ?_⟩
      · rcases X x hx with h1 | h2
        · exact absurd h1 (List.not_mem_nil x)
        · exact h2
      · have hge : st.srcs.length ≤ x := by
          rcases X x hx with h1 | h2
          · exact absurd h1 (List.not_mem_nil x)
          · exact h2
        have hlt : x < st.srcs.length := hv x ha
        omega

/-- C2 counterexample: with an empty pair list the untouched input
source is emitted as a shallow copy — the returned source object at
address 1 references MFD object 0, the very MFD object of the input
source — so the returned group is not a distinct object graph. -/
theorem apply_uncertainties_shares_mfd :
    (apply_uncertainties [] ⟨[0], 5⟩ demoStore).map
      (fun r => (r.1.sources, (r.2.readSrc 1).mfdRef, (demoStore.readSrc 0).mfdRef)) =
    .ok ([1], 0, 0) := rfl

/-- C2 witness: the no-mutation frame instantiated on the one-source
demo store with an empty pair list. -/
theorem apply_uncertainties_no_mutation_witness :
    Preserved 1 1 demoStore ⟨[demoSrc, demoSrc], [demoMfd]⟩ ∧
    (∀ x ∈ [1], 1 ≤ x) ∧ (∀ x ∈ [1], x ∉ [0]) :=
  apply_uncertainties_no_mutation [] ⟨[0], 5⟩ demoStore ⟨[1], 0⟩
    ⟨[demoSrc, demoSrc], [demoMfd]⟩ rfl (by decide)

theorem oksOf_all_false (source : Option SrcObj) :
    ∀ pairs : List (BranchSet × UVal),
    (∀ p ∈ pairs, p.1.filter_source source = .ok false) →
    oksOf pairs source = .ok (pairs.map fun _ => false) := by
  intro pairs
  induction pairs with
  | nil => intro _; rfl
  | cons p pairs ih =>
      intro hall
      obtain ⟨bs, v⟩ := p
      have h1 : bs.filter_source source = .ok false :=
        hall (bs, v) (List.mem_cons_self _ _)
      have h2 := ih fun q hq => hall q (List.mem_cons_of_mem _ hq)
      simp [oksOf, h1, h2]

theorem oksOf_split (source : Option SrcObj) (post : List (BranchSet × UVal))
    (cb : BranchSet) (v : UVal)
    (hok : cb.filter_source source = .ok true)
    (hpost : ∀ p ∈ post, p.1.filter_source source = .ok false) :
    ∀ pre : List (BranchSet × UVal),
    (∀ p ∈ pre, p.1.filter_source source = .ok false) →
    oksOf (pre ++ (cb, v) :: post) source =
      .ok ((pre.map fun _ => false) ++ true :: (post.map fun _ => false)) := by
  intro pre
  induction pre with
  | nil =>
      intro _
      simp [oksOf, hok, oksOf_all_false source post hpost]
  | cons p pre ih =>
      intro hpre
      obtain ⟨bs, v2⟩ := p
      have h1 : bs.filter_source source = .ok false :=
        hpre (bs, v2) (List.mem_cons_self _ _)
      have h2 := ih fun q hq => hpre q (List.mem_cons_of_mem _ hq)
      simp [oksOf, h1, h2]

theorem pairsLoop_all_false (pairs : List (BranchSet × UVal)) (oks : List Bool)
    (src : Nat) (srcs : List Nat) (ch : Nat) (st : Store)
    (hlen : oks.length = pairs.length) (hfalse : ∀ b ∈ oks, b = false) :
    pairsLoop pairs oks src srcs ch st = .ok (srcs, ch, st) := by
  have hstep := pairsLoop_skip_false pairs oks [] [] src srcs ch st hlen hfalse
  simpa using hstep

/-- C1 (amended): for a source accepted by a collapsed branch-set with
k branches and rejected by every other pair of the list,
`apply_uncertainties` emits for that source exactly the k fan-out
copies — k pairwise distinct freshly allocated deep copies, the j-th
carrying the j-th branch weight as `scaling_rate` and owning a fresh
MFD object — and increments the group changes counter by exactly k.
The amendment restricts the claim to a source to which no other pair
of the list applies: with a second applicable pair the loop emits the
extra working copy and counts it again in `changes` (see the
counterexample). -/
theorem collapsed_fanout_exact (pre post : List (BranchSet × UVal)) (cb : BranchSet)
    (v : UVal) (a : Nat) (ch0 : Nat) (st : Store)
    (ha : a < st.srcs.length)
    (hcb : cb.collapsed = true)
    (hok : cb.filter_source (some (st.readSrc a)) = .ok true)
    (hpre : ∀ p ∈ pre, p.1.filter_source (some (st.readSrc a)) = .ok false)
    (hpost : ∀ p ∈ post, p.1.filter_source (some (st.readSrc a)) = .ok false)
    (hcode : (st.readSrc a).code ≠ 'N') :
    ∃ stF : Store,
      processSource (pre ++ (cb, v) :: post) a st =
        .ok ((List.range cb.branches.length).map (fun j => st.srcs.length + 1 + j),
          cb.branches.length, stF) ∧
      apply_uncertainties (pre ++ (cb, v) :: post) ⟨[a], ch0⟩ st =
        .ok (⟨(List.range cb.branches.length).map (fun j => st.srcs.length + 1 + j),
          cb.branches.length⟩, stF) ∧
      ((List.range cb.branches.length).map (fun j => st.srcs.length + 1 + j)).Nodup ∧
      (∀ x ∈ (List.range cb.branches.length).map (fun j => st.srcs.length + 1 + j),
        st.srcs.length < x) ∧
      Preserved st.srcs.length st.mfds.length st stF ∧
      (∀ j, j < cb.branches.length →
        (stF.readSrc (st.srcs.length + 1 + j)).scaling_rate =
          (cb.branches.getD j bdef).weight ∧
        (stF.readSrc (st.srcs.length + 1 + j)).source_id = (st.readSrc a).source_id ∧
        st.mfds.length < (stF.readSrc (st.srcs.length + 1 + j)).mfdRef) := by
  have hoks := oksOf_split (some (st.readSrc a)) post cb v hok hpost pre hpre
  obtain ⟨hd1, hd2, hd3, hdP, hdSelf, hdMfd⟩ := copy_deepcopy_spec st a
  have hsrc1 : (copy_deepcopy st a).1 < (copy_deepcopy st a).2.srcs.length := by omega
  obtain ⟨f1, f2, f3, fP, fC⟩ := fanOut_spec cb.uncertainty_type cb.branches
    (copy_deepcopy st a).1 [] (copy_deepcopy st a).2 hsrc1
  have hcode1 : ((copy_deepcopy st a).2.readSrc (copy_deepcopy st a).1).code =
      (st.readSrc a).code := by
    rw [hd1, hdSelf]
  have hfanlist : (fanOut cb.uncertainty_type cb.branches
      (copy_deepcopy st a).1 [] (copy_deepcopy st a).2).1 =
      (List.range cb.branches.length).map (fun j => st.srcs.length + 1 + j) := by
    rw [f1, hd2]
    simp
  have hps : processSource (pre ++ (cb, v) :: post) a st =
      .ok ((List.range cb.branches.length).map (fun j => st.srcs.length + 1 + j),
        cb.branches.length,
        (fanOut cb.uncertainty_type cb.branches
          (copy_deepcopy st a).1 [] (copy_deepcopy st a).2).2) := by
    unfold processSource
    rw [hoks]
    dsimp only
    rw [if_pos (by simp)]
    rw [pairsLoop_skip_false pre (pre.map fun _ => false) _ _ _ _ _ _
      (by simp)
      (fun b hb => by
        rcases List.mem_map.1 hb with ⟨q, _, hq⟩
        exact hq.symm)]
    rw [show pairsLoop ((cb, v) :: post) (true :: (post.map fun _ => false))
        (copy_deepcopy st a).1 [] 0 (copy_deepcopy st a).2 =
        pairsLoop post (post.map fun _ => false) (copy_deepcopy st a).1
          (fanOut cb.uncertainty_type cb.branches
            (copy_deepcopy st a).1 [] (copy_deepcopy st a).2).1
          (0 + (fanOut cb.uncertainty_type cb.branches
            (copy_deepcopy st a).1 [] (copy_deepcopy st a).2).1.length)
          (fanOut cb.uncertainty_type cb.branches
            (copy_deepcopy st a).1 [] (copy_deepcopy st a).2).2
        from by
      rw [pairsLoop]
      rw [if_pos (by simp [hcb])]
      rw [if_neg (by rw [hcode1]; exact hcode)]]
    rw [pairsLoop_all_false post (post.map fun _ => false) _ _ _ _ (by simp)
      (fun b hb => by
        rcases List.mem_map.1 hb with ⟨q, _, hq⟩
        exact hq.symm)]
    rw [hfanlist]
    simp
  refine ⟨(fanOut cb.uncertainty_type cb.branches
      (copy_deepcopy st a).1 [] (copy_deepcopy st a).2).2, hps, ?_, ?_, ?_, ?_, ?_⟩
  · rw [show apply_uncertainties (pre ++ (cb, v) :: post) ⟨[a], ch0⟩ st =
        match srcLoop (pre ++ (cb, v) :: post) [a] [] 0 st with
        | .error e => .error e
        | .ok (srcs, changes, st1) => .ok (⟨srcs, changes⟩, st1) from rfl]
    rw [show srcLoop (pre ++ (cb, v) :: post) [a] [] 0 st =
        match processSource (pre ++ (cb, v) :: post) a st with
        | .error e => .error e
        | .ok (srcs, ch, st1) =>
            srcLoop (pre ++ (cb, v) :: post) [] ([] ++ srcs) (0 + ch) st1 from rfl]
    rw [hps]
    simp [srcLoop]
  · refine List.Nodup.map (fun x y hxy => by omega) (List.nodup_range _)
  · intro x hx
    rcases List.mem_map.1 hx with ⟨j, _, hj⟩
    omega
  · refine Preserved.trans hdP (Preserved.mono (by omega) (by omega) fP)
  · intro j hj
    obtain ⟨c1, c2, c3, c4⟩ := fC j hj
    have haddr : st.srcs.length + 1 + j = (copy_deepcopy st a).2.srcs.length + j := by
      omega
    rw [haddr]
    refine ⟨c1, ?_, ?_⟩
    · rw [c2, hd1, hdSelf]
    · omega

/-- C1 witness: the exact fan-out law instantiated on the one-source
demo store with the two-branch collapsed branch-set as the only
pair. -/
theorem collapsed_fanout_exact_witness :
    ∃ stF : Store,
      processSource [(collBS2, .flt 0)] 0 demoStore =
        .ok ((List.range collBS2.branches.length).map
          (fun j => demoStore.srcs.length + 1 + j), collBS2.branches.length, stF) ∧
      apply_uncertainties [(collBS2, .flt 0)] ⟨[0], 0⟩ demoStore =
        .ok (⟨(List.range collBS2.branches.length).map
          (fun j => demoStore.srcs.length + 1 + j), collBS2.branches.length⟩, stF) ∧
      ((List.range collBS2.branches.length).map
        (fun j => demoStore.srcs.length + 1 + j)).Nodup ∧
      (∀ x ∈ (List.range collBS2.branches.length).map
        (fun j => demoStore.srcs.length + 1 + j), demoStore.srcs.length < x) ∧
      Preserved demoStore.srcs.length demoStore.mfds.length demoStore stF ∧
      (∀ j, j < collBS2.branches.length →
        (stF.readSrc (demoStore.srcs.length + 1 + j)).scaling_rate =
          (collBS2.branches.getD j bdef).weight ∧
        (stF.readSrc (demoStore.srcs.length + 1 + j)).source_id =
          (demoStore.readSrc 0).source_id ∧
        demoStore.mfds.length < (stF.readSrc (demoStore.srcs.length + 1 + j)).mfdRef) :=
  collapsed_fanout_exact [] [] collBS2 (.flt 0) 0 0 demoStore (by decide) rfl rfl
    (by simp) (by simp) (by decide)

/-- C1 counterexample: with a non-collapsed applicable pair listed
before the collapsed two-branch pair, the single input source yields
three output sources and a changes counter of four — not the two
sources and two changes the claim demands for k = 2. -/
theorem collapsed_fanout_with_other_pair :
    (apply_uncertainties [(openBS, .flt 7), (collBS2, .flt 0)] ⟨[0], 0⟩ demoStore).map
      (fun r => (r.1.sources.length, r.1.changes)) = .ok (3, 4) := rfl

/-- Reaching any applicable collapsed pair with a multi-surface
working copy (`code == b'N'`) raises the not-implemented error naming
the working copy. -/
theorem pairsLoop_collapsed_error (pairs : List (BranchSet × UVal)) :
    ∀ (oks : List Bool) (src : Nat) (srcs : List Nat) (ch : Nat) (st : Store),
    (st.readSrc src).code = 'N' →
    (∃ pz ∈ pairs.zip oks, pz.1.1.collapsed = true ∧ pz.2 = true) →
    pairsLoop pairs oks src srcs ch st =
      .error (.notImplementedError (st.readSrc src).source_id) := by
  induction pairs with
  | nil =>
      intro oks src srcs ch st hN hex
      obtain ⟨pz, hpz, _⟩ := hex
      simp at hpz
  | cons p pairs ih =>
      intro oks src srcs ch st hN hex
      obtain ⟨bs, v⟩ := p
      cases oks with
      | nil =>
          obtain ⟨pz, hpz, _⟩ := hex
          simp at hpz
      | cons ok oks =>
          by_cases hcol : (ok && bs.collapsed) = true
          · rw [pairsLoop, if_pos hcol, if_pos hN]
          · have hex2 : ∃ pz ∈ pairs.zip oks, pz.1.1.collapsed = true ∧ pz.2 = true := by
              obtain ⟨pz, hpz, hc, ht⟩ := hex
              rw [List.zip_cons_cons] at hpz
              rcases List.mem_cons.1 hpz with heq | htail
              · subst heq
                have ht2 : ok = true := ht
                have hc2 : bs.collapsed = true := hc
                exact absurd (by simp [ht2, hc2]) hcol
              · exact ⟨pz, htail, hc, ht⟩
            by_cases hok : ok = true
            · have hcol2 : bs.collapsed = false := by
                cases hc : bs.collapsed
                · rfl
                · rw [hok, hc] at hcol; simp at hcol
              rw [show pairsLoop ((bs, v) :: pairs) (ok :: oks) src srcs ch st =
                  pairsLoop pairs oks src
                    (if srcs.isEmpty then srcs ++ [src] else srcs) (ch + 1)
                    (apply_uncertainty bs.uncertainty_type st src v)
                  from by simp [pairsLoop, hok, hcol2]]
              obtain ⟨_, _, _, a4, _⟩ :=
                apply_uncertainty_frame bs.uncertainty_type st src v
              have hN1 : ((apply_uncertainty bs.uncertainty_type st src v).readSrc src).code =
                  'N' := by rw [(a4 src).2.2.2.1, hN]
              rw [ih oks src _ _ _ hN1 hex2, (a4 src).1]
            · have hokf : ok = false := by
                cases hc : ok
                · rfl
                · exact absurd hc hok
              subst hokf
              rw [show pairsLoop ((bs, v) :: pairs) (false :: oks) src srcs ch st =
                  pairsLoop pairs oks src srcs ch st from by simp [pairsLoop]]
              exact ih oks src srcs ch st hN hex2

/-- C5: for a multi-surface composite source (`code == b'N'`) accepted
by a collapsed pair, `apply_uncertainties` fails fast with the
not-implemented error naming the offending source (its `source_id`),
instead of producing output sources for it.  The filters are assumed to
evaluate without error (`oksOf` returns a boolean list) with the
collapsed pair applicable. -/
theorem collapsed_multisurface_error (pairs : List (BranchSet × UVal)) (oks : List Bool)
    (a : Nat) (rest : List Nat) (ch0 : Nat) (st : Store)
    (hoks : oksOf pairs (some (st.readSrc a)) = .ok oks)
    (hex : ∃ pz ∈ pairs.zip oks, pz.1.1.collapsed = true ∧ pz.2 = true)
    (hcode : (st.readSrc a).code = 'N') :
    processSource pairs a st = .error (.notImplementedError (st.readSrc a).source_id) ∧
    apply_uncertainties pairs ⟨a :: rest, ch0⟩ st =
      .error (.notImplementedError (st.readSrc a).source_id) := by
  have hany : oks.any id = true := by
    obtain ⟨pz, hpz, _, ht⟩ := hex
    have hmem : pz.2 ∈ oks := (List.of_mem_zip hpz).2
    exact List.any_eq_true.2 ⟨pz.2, hmem, by rw [ht]; rfl⟩
  obtain ⟨hd1, hd2, hd3, hdP, hdSelf, hdMfd⟩ := copy_deepcopy_spec st a
  have hN1 : ((copy_deepcopy st a).2.readSrc (copy_deepcopy st a).1).code = 'N' := by
    rw [hd1, hdSelf]
    exact hcode
  have hsid : ((copy_deepcopy st a).2.readSrc (copy_deepcopy st a).1).source_id =
      (st.readSrc a).source_id := by
    rw [hd1, hdSelf]
  have hps : processSource pairs a st =
      .error (.notImplementedError (st.readSrc a).source_id) := by
    unfold processSource
    rw [hoks]
    dsimp only
    rw [if_pos hany]
    rw [pairsLoop_collapsed_error pairs oks _ [] 0 _ hN1 hex, hsid]
  refine ⟨hps, ?_⟩
  rw [show apply_uncertainties pairs ⟨a :: rest, ch0⟩ st =
      match srcLoop pairs (a :: rest) [] 0 st with
      | .error e => .error e
      | .ok (srcs, changes, st1) => .ok (⟨srcs, changes⟩, st1) from rfl]
  rw [show srcLoop pairs (a :: rest) [] 0 st =
      match processSource pairs a st with
      | .error e => .error e
      | .ok (srcs, ch, st1) => srcLoop pairs rest ([] ++ srcs) (0 + ch) st1 from rfl]
  rw [hps]

/-- C5 witness: the fail-fast law instantiated on the demo store whose
source is a multi-surface composite, with a single collapsed pair. -/
theorem collapsed_multisurface_error_witness :
    processSource [(collBS1, .flt 0)] 0 demoStoreN =
      .error (.notImplementedError (demoStoreN.readSrc 0).source_id) ∧
    apply_uncertainties [(collBS1, .flt 0)] ⟨[0], 0⟩ demoStoreN =
      .error (.notImplementedError (demoStoreN.readSrc 0).source_id) :=
  collapsed_multisurface_error [(collBS1, .flt 0)] [true] 0 [] 0 demoStoreN rfl
    (by decide) rfl

theorem oksOf_split2 (source : Option SrcObj) (post : List (BranchSet × UVal))
    (cb : BranchSet) (v : UVal) (oksPost : List Bool)
    (hok : cb.filter_source source = .ok true)
    (hpost : oksOf post source = .ok oksPost) :
    ∀ pre : List (BranchSet × UVal),
    (∀ p ∈ pre, p.1.filter_source source = .ok false) →
    oksOf (pre ++ (cb, v) :: post) source =
      .ok ((pre.map fun _ => false) ++ true :: oksPost) := by
  intro pre
  induction pre with
  | nil =>
      intro _
      simp [oksOf, hok, hpost]
  | cons p pre ih =>
      intro hpre
      obtain ⟨bs, v2⟩ := p
      have h1 : bs.filter_source source = .ok false :=
        hpre (bs, v2) (List.mem_cons_self _ _)
      have h2 := ih fun q hq => hpre q (List.mem_cons_of_mem _ hq)
      simp [oksOf, h1, h2]

/-- A tail of non-collapsed pairs applied after a nonempty fan-out: the
emitted source list never changes again, each applicable pair only
increments the counter and mutates the working copy, and every emitted
source object and its MFD object stay exactly as the fan-out left
them. -/
theorem pairsLoop_noncollapsed_tail (pairs : List (BranchSet × UVal)) :
    ∀ (oks : List Bool) (src : Nat) (srcs : List Nat) (ch : Nat) (st : Store),
    (∀ p ∈ pairs, p.1.collapsed = false) →
    srcs ≠ [] →
    src ∉ srcs →
    (∀ x ∈ srcs, x < st.srcs.length) →
    src < st.srcs.length →
    (∀ x ∈ srcs, (st.readSrc x).mfdRef ≠ (st.readSrc src).mfdRef) →
    ∃ stF : Store,
      pairsLoop pairs oks src srcs ch st =
        .ok (srcs, ch + ((pairs.zip oks).countP fun pz => pz.2), stF) ∧
      (∀ x ∈ srcs, stF.readSrc x = st.readSrc x ∧
        stF.readMfd (st.readSrc x).mfdRef = st.readMfd (st.readSrc x).mfdRef) := by
  induction pairs with
  | nil =>
      intro oks src srcs ch st _ _ _ _ _ _
      exact ⟨st, by simp [pairsLoop], fun x _ => ⟨rfl, rfl⟩⟩
  | cons p pairs ih =>
      intro oks src srcs ch st hnc hne hnotin hlt hsrc hmfd
      obtain ⟨bs, v⟩ := p
      have hcol : bs.collapsed = false := hnc (bs, v) (List.mem_cons_self _ _)
      have hnc2 : ∀ p ∈ pairs, p.1.collapsed = false :=
        fun q hq => hnc q (List.mem_cons_of_mem _ hq)
      cases oks with
      | nil =>
          exact ⟨st, by simp [pairsLoop], fun x _ => ⟨rfl, rfl⟩⟩
      | cons ok oks =>
          by_cases hok : ok = true
          · subst hok
            have hemp : srcs.isEmpty = false := by
              cases srcs
              · exact absurd rfl hne
              · rfl
            obtain ⟨a1, a2, a3, a4, a5⟩ := apply_uncertainty_frame bs.uncertainty_type st src v
            have hlt1 : ∀ x ∈ srcs, x < (apply_uncertainty bs.uncertainty_type st src v).srcs.length :=
              fun x hx => by rw [a1]; exact hlt x hx
            have hsrc1 : src < (apply_uncertainty bs.uncertainty_type st src v).srcs.length := by
              rw [a1]; exact hsrc
            have hread1 : ∀ x ∈ srcs,
                (apply_uncertainty bs.uncertainty_type st src v).readSrc x = st.readSrc x :=
              fun x hx => a3 x (fun he => hnotin (he ▸ hx))
            have hmfd1 : ∀ x ∈ srcs,
                ((apply_uncertainty bs.uncertainty_type st src v).readSrc x).mfdRef ≠
                ((apply_uncertainty bs.uncertainty_type st src v).readSrc src).mfdRef := by
              intro x hx
              rw [hread1 x hx, (a4 src).2.2.2.2.2]
              exact hmfd x hx
            obtain ⟨stF, hF, hC⟩ := ih oks src srcs (ch + 1)
              (apply_uncertainty bs.uncertainty_type st src v)
              hnc2 hne hnotin hlt1 hsrc1 hmfd1
            refine ⟨stF, ?_, ?_⟩
            · rw [show pairsLoop ((bs, v) :: pairs) (true :: oks) src srcs ch st =
                  pairsLoop pairs oks src
                    (if srcs.isEmpty then srcs ++ [src] else srcs) (ch + 1)
                    (apply_uncertainty bs.uncertainty_type st src v)
                  from by simp [pairsLoop, hcol]]
              rw [hemp]
              rw [show (if false = true then srcs ++ [src] else srcs) = srcs from rfl]
              rw [hF]
              rw [List.zip_cons_cons, List.countP_cons_of_pos _ _ (by rfl)]
              have harith : ch + 1 + ((pairs.zip oks).countP fun pz => pz.2) =
                  ch + (((pairs.zip oks).countP fun pz => pz.2) + 1) := by omega
              rw [harith]
            · intro x hx
              obtain ⟨e1, e2⟩ := hC x hx
              rw [hread1 x hx] at e1 e2
              refine ⟨e1, ?_⟩
              rw [e2]
              exact a5 _ (hmfd x hx)
          · have hokf : ok = false := by
              cases hc : ok
              · rfl
              · exact absurd hc hok
            subst hokf
            obtain ⟨stF, hF, hC⟩ := ih oks src srcs ch st hnc2 hne hnotin hlt hsrc hmfd
            refine ⟨stF, ?_, hC⟩
            rw [show pairsLoop ((bs, v) :: pairs) (false :: oks) src srcs ch st =
                pairsLoop pairs oks src srcs ch st from by simp [pairsLoop]]
            rw [hF]
            rw [List.zip_cons_cons, List.countP_cons_of_neg _ _ (by simp)]

/-- C10 (amended): when the first applicable pair for a source is a
collapsed branch-set with at least one branch and every following pair
is non-collapsed, each later applicable value is applied to the
working deep copy, which is never emitted: the output stays exactly
the fan-out list (the working copy address is not in it), each later
applicable pair still increments the changes counter by one, and the
emitted source objects and their MFD objects are exactly those the
fan-out produced, so the later modification is absent from the
returned sources.  The amendment requires the collapsed pair to be the
first applicable one: a non-collapsed applicable pair listed before it
emits the working copy, through which later modifications do reach the
output (see the counterexample). -/
theorem collapsed_then_plain_modification_absent (pre post : List (BranchSet × UVal))
    (cb : BranchSet) (v : UVal) (oksPost : List Bool) (a : Nat) (st : Store)
    (ha : a < st.srcs.length)
    (hcb : cb.collapsed = true)
    (hk : cb.branches.length ≠ 0)
    (hok : cb.filter_source (some (st.readSrc a)) = .ok true)
    (hpre : ∀ p ∈ pre, p.1.filter_source (some (st.readSrc a)) = .ok false)
    (hpostc : ∀ p ∈ post, p.1.collapsed = false)
    (hoksPost : oksOf post (some (st.readSrc a)) = .ok oksPost)
    (hcode : (st.readSrc a).code ≠ 'N') :
    ∃ stF : Store,
      processSource (pre ++ (cb, v) :: post) a st =
        .ok ((List.range cb.branches.length).map (fun j => st.srcs.length + 1 + j),
          cb.branches.length + ((post.zip oksPost).countP fun pz => pz.2), stF) ∧
      (copy_deepcopy st a).1 ∉
        (List.range cb.branches.length).map (fun j => st.srcs.length + 1 + j) ∧
      (∀ x ∈ (List.range cb.branches.length).map (fun j => st.srcs.length + 1 + j),
        stF.readSrc x =
          (fanOut cb.uncertainty_type cb.branches (copy_deepcopy st a).1 []
            (copy_deepcopy st a).2).2.readSrc x ∧
        stF.readMfd ((stF.readSrc x).mfdRef) =
          (fanOut cb.uncertainty_type cb.branches (copy_deepcopy st a).1 []
            (copy_deepcopy st a).2).2.readMfd ((stF.readSrc x).mfdRef)) := by
  have hoks := oksOf_split2 (some (st.readSrc a)) post cb v oksPost hok hoksPost pre hpre
  obtain ⟨hd1, hd2, hd3, hdP, hdSelf, hdMfd⟩ := copy_deepcopy_spec st a
  have hsrc1 : (copy_deepcopy st a).1 < (copy_deepcopy st a).2.srcs.length := by omega
  obtain ⟨f1, f2, f3, fP, fC⟩ := fanOut_spec cb.uncertainty_type cb.branches
    (copy_deepcopy st a).1 [] (copy_deepcopy st a).2 hsrc1
  have hcode1 : ((copy_deepcopy st a).2.readSrc (copy_deepcopy st a).1).code =
      (st.readSrc a).code := by
    rw [hd1, hdSelf]
  have hfanlist : (fanOut cb.uncertainty_type cb.branches
      (copy_deepcopy st a).1 [] (copy_deepcopy st a).2).1 =
      (List.range cb.branches.length).map (fun j => st.srcs.length + 1 + j) := by
    rw [f1, hd2]
    simp
  have hmidsrc : (fanOut cb.uncertainty_type cb.branches
      (copy_deepcopy st a).1 [] (copy_deepcopy st a).2).2.readSrc (copy_deepcopy st a).1 =
      (copy_deepcopy st a).2.readSrc (copy_deepcopy st a).1 :=
    fP.1 (copy_deepcopy st a).1 hsrc1
  have hmidmref : ((fanOut cb.uncertainty_type cb.branches
      (copy_deepcopy st a).1 [] (copy_deepcopy st a).2).2.readSrc
        (copy_deepcopy st a).1).mfdRef = st.mfds.length := by
    rw [hmidsrc, hd1, hdSelf]
  -- conditions for the non-collapsed tail
  have hLne : (fanOut cb.uncertainty_type cb.branches
      (copy_deepcopy st a).1 [] (copy_deepcopy st a).2).1 ≠ [] := by
    rw [hfanlist]
    intro hc
    have hlen := congrArg List.length hc
    simp only [List.length_map, List.length_range, List.length_nil] at hlen
    exact hk hlen
  have hnotin : (copy_deepcopy st a).1 ∉ (fanOut cb.uncertainty_type cb.branches
      (copy_deepcopy st a).1 [] (copy_deepcopy st a).2).1 := by
    rw [hfanlist, hd1]
    intro hc
    rcases List.mem_map.1 hc with ⟨j, _, hj⟩
    omega
  have hltF : ∀ x ∈ (fanOut cb.uncertainty_type cb.branches
      (copy_deepcopy st a).1 [] (copy_deepcopy st a).2).1,
      x < (fanOut cb.uncertainty_type cb.branches
        (copy_deepcopy st a).1 [] (copy_deepcopy st a).2).2.srcs.length := by
    intro x hx
    rw [hfanlist] at hx
    rcases List.mem_map.1 hx with ⟨j, hjr, hj⟩
    have hjk : j < cb.branches.length := List.mem_range.1 hjr
    omega
  have hsrcF : (copy_deepcopy st a).1 < (fanOut cb.uncertainty_type cb.branches
      (copy_deepcopy st a).1 [] (copy_deepcopy st a).2).2.srcs.length := by
    omega
  have hmfdF : ∀ x ∈ (fanOut cb.uncertainty_type cb.branches
      (copy_deepcopy st a).1 [] (copy_deepcopy st a).2).1,
      ((fanOut cb.uncertainty_type cb.branches
        (copy_deepcopy st a).1 [] (copy_deepcopy st a).2).2.readSrc x).mfdRef ≠
      ((fanOut cb.uncertainty_type cb.branches
        (copy_deepcopy st a).1 [] (copy_deepcopy st a).2).2.readSrc
          (copy_deepcopy st a).1).mfdRef := by
    intro x hx
    rw [hfanlist] at hx
    rcases List.mem_map.1 hx with ⟨j, hjr, hj⟩
    have hjk : j < cb.branches.length := List.mem_range.1 hjr
    obtain ⟨_, _, _, c4⟩ := fC j hjk
    have haddr : (copy_deepcopy st a).2.srcs.length + j = x := by omega
    rw [haddr] at c4
    rw [hmidmref]
    omega
  obtain ⟨stF, hF, hC⟩ := pairsLoop_noncollapsed_tail post oksPost
    (copy_deepcopy st a).1
    (fanOut cb.uncertainty_type cb.branches
      (copy_deepcopy st a).1 [] (copy_deepcopy st a).2).1
    (0 + (fanOut cb.uncertainty_type cb.branches
      (copy_deepcopy st a).1 [] (copy_deepcopy st a).2).1.length)
    (fanOut cb.uncertainty_type cb.branches
      (copy_deepcopy st a).1 [] (copy_deepcopy st a).2).2
    hpostc hLne hnotin hltF hsrcF hmfdF
  refine ⟨stF, ?_, by rw [← hfanlist]; exact hnotin, ?_⟩
  · unfold processSource
    rw [hoks]
    dsimp only
    rw [if_pos (by simp)]
    rw [pairsLoop_skip_false pre (pre.map fun _ => false) _ _ _ _ _ _
      (by simp)
      (fun b hb => by
        rcases List.mem_map.1 hb with ⟨q, _, hq⟩
        exact hq.symm)]
    rw [show pairsLoop ((cb, v) :: post) (true :: oksPost)
        (copy_deepcopy st a).1 [] 0 (copy_deepcopy st a).2 =
        pairsLoop post oksPost (copy_deepcopy st a).1
          (fanOut cb.uncertainty_type cb.branches
            (copy_deepcopy st a).1 [] (copy_deepcopy st a).2).1
          (0 + (fanOut cb.uncertainty_type cb.branches
            (copy_deepcopy st a).1 [] (copy_deepcopy st a).2).1.length)
          (fanOut cb.uncertainty_type cb.branches
            (copy_deepcopy st a).1 [] (copy_deepcopy st a).2).2
        from by
      rw [pairsLoop]
      rw [if_pos (by simp [hcb])]
      rw [if_neg (by rw [hcode1]; exact hcode)]]
    rw [hF, hfanlist]
    have hfanlen : ((List.range cb.branches.length).map
        (fun j => st.srcs.length + 1 + j)).length = cb.branches.length := by simp
    rw [hfanlen]
    have harith : 0 + cb.branches.length + ((post.zip oksPost).countP fun pz => pz.2) =
        cb.branches.length + ((post.zip oksPost).countP fun pz => pz.2) := by omega
    rw [harith]
  · intro x hx
    rw [← hfanlist] at hx
    obtain ⟨e1, e2⟩ := hC x hx
    refine ⟨e1, ?_⟩
    rw [e1]
    exact e2

/-- C10 witness: the law instantiated on the demo store with the
one-branch collapsed pair first and one applicable non-collapsed pair
after it. -/
theorem collapsed_then_plain_modification_absent_witness :
    ∃ stF : Store,
      processSource [(collBS1, .flt 0), (openBS, .flt 9)] 0 demoStore =
        .ok ((List.range collBS1.branches.length).map
          (fun j => demoStore.srcs.length + 1 + j),
          collBS1.branches.length +
            (([(openBS, UVal.flt 9)].zip [true]).countP fun pz => pz.2), stF) ∧
      (copy_deepcopy demoStore 0).1 ∉
        (List.range collBS1.branches.length).map
          (fun j => demoStore.srcs.length + 1 + j) ∧
      (∀ x ∈ (List.range collBS1.branches.length).map
          (fun j => demoStore.srcs.length + 1 + j),
        stF.readSrc x =
          (fanOut collBS1.uncertainty_type collBS1.branches
            (copy_deepcopy demoStore 0).1 []
            (copy_deepcopy demoStore 0).2).2.readSrc x ∧
        stF.readMfd ((stF.readSrc x).mfdRef) =
          (fanOut collBS1.uncertainty_type collBS1.branches
            (copy_deepcopy demoStore 0).1 []
            (copy_deepcopy demoStore 0).2).2.readMfd ((stF.readSrc x).mfdRef)) :=
  collapsed_then_plain_modification_absent [] [(openBS, .flt 9)] collBS1 (.flt 0)
    [true] 0 demoStore (by decide) rfl (by decide) rfl (by simp) (by decide) rfl
    (by decide)

/-- C10 counterexample: with a non-collapsed applicable pair listed
before the collapsed one, the working copy (address 1) is emitted, and
the value 9 of the final non-collapsed pair is visible in the returned
sources through it — its MFD carries `max_mag = 9` — though the claim
says that modification is absent from the returned sources. -/
theorem collapsed_then_plain_modifies_output :
    (processSource [(openBS, .flt 7), (collBS1, .flt 0), (openBS, .flt 9)]
        0 demoStore).map
      (fun r => (r.1, r.2.1,
        (r.2.2.readMfd ((r.2.2.readSrc 1).mfdRef)).max_mag)) = .ok ([1, 2], 4, 9) := rfl

end OQ
